import Mathlib

/-!
# centro-bank: daily exchange-rate collection and aggregation

A shallow embedding of `main.go`: the conversion of feed entries into
`CurrencyRate` records, the day-by-day collection loop
`getCurrenciesForLastDays`, and the aggregation pass `analyzeRates`,
together with models of the Go library functions they call
(`strconv.Atoi`, `strconv.ParseFloat`, `strings.ReplaceAll`, `time.Parse`,
`Time.AddDate`) and of `float64` values.
-/

namespace CentroBank

/-! ## float64 values -/

/-- A Go `float64` (IEEE 754 binary64): a NaN, a signed infinity, or a finite
value given by its sign bit, its biased exponent field (`0` for zeros and
subnormals, at most `2046`) and its 52-bit fraction field.  NaN payloads are
not distinguished: no operation of the program observes them. -/
inductive Float64
  | nan
  | inf (neg : Bool)
  | finite (neg : Bool) (expo : Fin 2047) (frac : Fin 4503599627370496)
deriving DecidableEq, Repr

namespace Float64

/-- The value `0.0` (positive zero), the zero value of the type. -/
def zero : Float64 := .finite false 0 0

/-- Whether the value is a NaN. -/
def isNaN : Float64 → Bool
  | nan => true
  | _ => false

/-- The sign bit (taken as clear for NaN). -/
def isNeg : Float64 → Bool
  | nan => false
  | inf n => n
  | finite n _ _ => n

/-- The exponent and fraction fields read as one unsigned integer; on
non-NaN values it is monotone in the absolute value. -/
def mag : Float64 → Nat
  | nan => 0
  | inf _ => 2047 * 4503599627370496
  | finite _ e f => e.val * 4503599627370496 + f.val

/-- Signed order key: `a` is below `b` as real numbers exactly when
`key a < key b` (theorem `key_lt_key_iff` for finite values; the infinities
lie beyond every finite key); both zeros have key `0`. -/
def key (x : Float64) : Int :=
  if x.isNeg then -(x.mag : Int) else (x.mag : Int)

/-- Go's `a < b` on float64: false when either side is NaN. -/
def lt (a b : Float64) : Bool :=
  !a.isNaN && !b.isNaN && decide (a.key < b.key)

/-- Go's `a > b` on float64. -/
def gt (a b : Float64) : Bool := lt b a

/-- Go's `a <= b` on float64: false when either side is NaN. -/
def le (a b : Float64) : Bool :=
  !a.isNaN && !b.isNaN && decide (a.key ≤ b.key)

/-- Go's `a == b` on float64: false when either side is NaN, true for the
two zeros. -/
def eq (a b : Float64) : Bool :=
  !a.isNaN && !b.isNaN && decide (a.key = b.key)

/-- Number of binary digits of `n` (`0` for `0`), by halving. -/
def bitLenAux : Nat → Nat → Nat
  | 0, _ => 0
  | fuel + 1, n => if n = 0 then 0 else bitLenAux fuel (n / 2) + 1

/-- Number of binary digits of `n`. -/
def bitLen (n : Nat) : Nat := bitLenAux n n

/-- Integer nearest to `n / d`, ties to the even integer. -/
def divRoundEven (n d : Nat) : Nat :=
  let q := n / d
  let r := n % d
  if d < 2 * r ∨ (2 * r = d ∧ q % 2 = 1) then q + 1 else q

/-- For positive `num` and `den`, the integer `e` with
`2 ^ e ≤ num / den < 2 ^ (e + 1)`. -/
def floorLog2 (num den : Nat) : Int :=
  let e : Int := (bitLen num : Int) - (bitLen den : Int)
  let reaches : Bool :=
    if 0 ≤ e then decide (den * 2 ^ e.toNat ≤ num) else decide (den ≤ num * 2 ^ (-e).toNat)
  if reaches then e else e - 1

/-- The float64 whose exponent and fraction fields, read as one integer, are
`k`; from exponent field 2047 on, the value is beyond the largest finite
float64: the result is the infinity and the overflow flag is set. -/
def pack (neg : Bool) (k : Nat) : Float64 × Bool :=
  if h : k / 4503599627370496 < 2047 then
    (.finite neg ⟨k / 4503599627370496, h⟩
      ⟨k % 4503599627370496, Nat.mod_lt _ (by decide)⟩, false)
  else (.inf neg, true)

/-- The float64 nearest to `± num / den` (IEEE 754 round-to-nearest, ties to
even), paired with an overflow flag: a magnitude that rounds beyond the
largest finite value gives the infinity of that sign and `true`.  A zero
numerator gives the zero of the requested sign.  Theorems `round_near` and
`round_overflow` state the accuracy of the result. -/
def round (neg : Bool) (num den : Nat) : Float64 × Bool :=
  if num = 0 ∨ den = 0 then (.finite neg 0 0, false)
  else
    let e : Int := max (floorLog2 num den) (-1022)
    let sh : Int := 52 - e
    let m : Nat :=
      if 0 ≤ sh then divRoundEven (num * 2 ^ sh.toNat) den
      else divRoundEven num (den * 2 ^ (-sh).toNat)
    pack neg ((e + 1022).toNat * 4503599627370496 + m)

/-- The float64 nearest to `± n * 2 ^ q`. -/
def roundScaled (neg : Bool) (n : Nat) (q : Int) : Float64 :=
  if 0 ≤ q then (round neg (n * 2 ^ q.toNat) 1).1 else (round neg n (2 ^ (-q).toNat)).1

/-- Integer significand of a finite value: the fraction, with the implicit
leading bit for normal numbers. -/
def significand (expo : Fin 2047) (frac : Fin 4503599627370496) : Nat :=
  if expo.val = 0 then frac.val else 4503599627370496 + frac.val

/-- Binary exponent `q` of a finite value, so that the magnitude is
`significand * 2 ^ q`. -/
def scale (expo : Fin 2047) : Int :=
  (if expo.val = 0 then 1 else (expo.val : Int)) - 1075

/-- IEEE 754 addition, the `+` of Go on float64: the exact sum, rounded
(theorem `add_near`). -/
def add : Float64 → Float64 → Float64
  | nan, _ => nan
  | _, nan => nan
  | inf a, inf b => if a = b then inf a else nan
  | inf a, finite _ _ _ => inf a
  | finite _ _ _, inf b => inf b
  | finite na ea fa, finite nb eb fb =>
    let q : Int := min (scale ea) (scale eb)
    let ia : Int := (significand ea fa : Int) * 2 ^ (scale ea - q).toNat
    let ib : Int := (significand eb fb : Int) * 2 ^ (scale eb - q).toNat
    let total : Int := (if na then -ia else ia) + (if nb then -ib else ib)
    if total = 0 then finite (na && nb) 0 0
    else roundScaled (decide (total < 0)) total.natAbs q

/-- IEEE 754 division, the `/` of Go on float64: the exact quotient, rounded
(theorem `div_near`). -/
def div : Float64 → Float64 → Float64
  | nan, _ => nan
  | _, nan => nan
  | inf _, inf _ => nan
  | inf a, finite nb _ _ => inf (xor a nb)
  | finite na _ _, inf b => finite (xor na b) 0 0
  | finite na ea fa, finite nb eb fb =>
    let sa := significand ea fa
    let sb := significand eb fb
    if sb = 0 then (if sa = 0 then nan else inf (xor na nb))
    else
      let q : Int := scale ea - scale eb
      if 0 ≤ q then (round (xor na nb) (sa * 2 ^ q.toNat) sb).1
      else (round (xor na nb) sa (sb * 2 ^ (-q).toNat)).1

/-- The conversion `float64(n)` of a Go `int`: the integer, rounded (theorem
`ofInt_near`). -/
def ofInt (n : Int) : Float64 := (round (decide (n < 0)) n.natAbs 1).1

/-- The rational number a finite float64 denotes (`0` for NaN and the
infinities, which denote no number). -/
def toRat : Float64 → ℚ
  | finite neg e f => (if neg then -1 else 1) * (significand e f : ℚ) * (2 : ℚ) ^ scale e
  | _ => 0

/-- Magnitude of a finite value in units of `2 ^ (-1075)`. -/
def scaledMag (e : Fin 2047) (f : Fin 4503599627370496) : Nat :=
  significand e f * 2 ^ (if e.val = 0 then 1 else e.val)

/-- Half a unit in the last place of float64 at the magnitude of `num / den`:
`2 ^ (e - 53)` with `2 ^ e ≤ num / den < 2 ^ (e + 1)`, and `e = -1022`
throughout the subnormal range. -/
def halfUlp (num den : Nat) : ℚ :=
  (2 : ℚ) ^ (max (floorLog2 num den) (-1022) - 53)

/-- Whether the value is finite (neither NaN nor an infinity). -/
def isFinite : Float64 → Bool
  | finite _ _ _ => true
  | _ => false

end Float64

/-! ## Library functions on strings -/

/-- The error kinds of `strconv.NumError`: `invalid` is `ErrSyntax`,
`outOfRange` is `ErrRange`. -/
inductive NumError
  | invalid
  | outOfRange
deriving DecidableEq, Repr

/-- Whether a byte is a decimal digit, `'0' <= c && c <= '9'`. -/
def isDigit (c : Char) : Bool := decide (48 ≤ c.toNat) && decide (c.toNat ≤ 57)

/-- The value `c - '0'` of a decimal digit. -/
def digitVal (c : Char) : Nat := c.toNat - 48

/-- The helper `lower` of strconv, `c | ('x' - 'X')`, as a code point. -/
def lower (c : Char) : Nat := c.toNat ||| 32

/-- Whether `lower(c)` lies in `'a'..'f'`. -/
def isHexLetter (c : Char) : Bool := decide (97 ≤ lower c) && decide (lower c ≤ 102)

/-- The call `strings.ReplaceAll(s, old, new)` for one-byte ASCII `old` and `new`
(the program calls it with `","` and `"."`): every occurrence of the byte
is replaced. -/
def replaceAll (s : String) (old new : Char) : String :=
  ⟨s.data.map (fun c => if c = old then new else c)⟩

/-- Outcome of the digit loop of `strconv.ParseUint`. -/
inductive UintResult
  | value (n : Nat)
  | invalid
  | overflow
deriving DecidableEq, Repr

/-- The digit loop of `strconv.ParseUint(s, 10, 64)`: a byte that is not a
decimal digit is a syntax error, and the loop stops with a range error as
soon as the accumulated value leaves the uint64 range, before looking at
the bytes that follow. -/
def parseUintLoop : List Char → Nat → UintResult
  | [], n => .value n
  | c :: cs, n =>
    if !isDigit c then .invalid
    else if 18446744073709551615 / 10 + 1 ≤ n then .overflow
    else if 18446744073709551615 < n * 10 + digitVal c then .overflow
    else parseUintLoop cs (n * 10 + digitVal c)

/-- The function `strconv.Atoi` on a platform with 64-bit `int`: the value and the error
it returns.  On a syntax error the value is `0`; on a range error it is the
largest-magnitude int of the sign.  (For strings shorter than 19 bytes Go
takes a fast path that computes the same result.) -/
def Atoi (s : String) : Int × Option NumError :=
  if s.data = [] then (0, some .invalid)
  else
    let neg : Bool := s.data.head? = some '-'
    let body : List Char :=
      if s.data.head? = some '+' ∨ s.data.head? = some '-' then s.data.tail else s.data
    if body = [] then (0, some .invalid)
    else
      match parseUintLoop body 0 with
      | .invalid => (0, some .invalid)
      | .overflow =>
        if neg then (-9223372036854775808, some .outOfRange)
        else (9223372036854775807, some .outOfRange)
      | .value un =>
        if !neg && decide (9223372036854775808 ≤ un) then
          (9223372036854775807, some .outOfRange)
        else if neg && decide (9223372036854775808 < un) then
          (-9223372036854775808, some .outOfRange)
        else (if neg then -(un : Int) else (un : Int), none)

/-- Length of the common prefix of `s` and the lower-case `pat`, ASCII
upper-case letters of `s` being folded to lower case
(`commonPrefixLenIgnoreCase` of strconv). -/
def commonPrefixLenIgnoreCase : List Char → List Char → Nat
  | c :: cs, p :: ps =>
    let c1 : Nat := if 65 ≤ c.toNat ∧ c.toNat ≤ 90 then c.toNat + 32 else c.toNat
    if c1 = p.toNat then commonPrefixLenIgnoreCase cs ps + 1 else 0
  | _, _ => 0

/-- The infinity spellings: how many bytes of `s` spell `inf` or `infinity`. -/
def infinityLen (s : List Char) : Option Nat :=
  let n := commonPrefixLenIgnoreCase s "infinity".data
  let n1 := if 3 < n ∧ n < 8 then 3 else n
  if n1 = 3 ∨ n1 = 8 then some n1 else none

/-- The function `special` of strconv: a leading `NaN` or optionally signed
`Inf`/`Infinity`, with the number of bytes consumed. -/
def special (s : List Char) : Option (Float64 × Nat) :=
  match s with
  | [] => none
  | c :: cs =>
    if c = '+' ∨ c = '-' then
      (infinityLen cs).map (fun n => (Float64.inf (decide (c = '-')), n + 1))
    else if c = 'i' ∨ c = 'I' then
      (infinityLen s).map (fun n => (Float64.inf false, n))
    else if c = 'n' ∨ c = 'N' then
      if commonPrefixLenIgnoreCase s "nan".data = 3 then some (Float64.nan, 3) else none
    else none

/-- The mantissa part of a floating-point literal as `readFloat` scans it:
the digits read as one integer in the base, whether a point and a digit
were seen, and the number of digits after the point. -/
structure Mantissa where
  mant : Nat
  sawdot : Bool
  sawdigits : Bool
  fracDigits : Nat
deriving DecidableEq, Repr

/-- Appending one digit of value `d` in base `base`. -/
def Mantissa.push (st : Mantissa) (base d : Nat) : Mantissa :=
  { st with
    mant := st.mant * base + d
    sawdigits := true
    fracDigits := if st.sawdot then st.fracDigits + 1 else st.fracDigits }

/-- The digit loop of `readFloat`: underscores are skipped, one point is
accepted, digits (and hex letters in base 16) accumulate; it stops at the
first other byte and returns what is left. -/
def scanMantissa (hex : Bool) : List Char → Mantissa → Mantissa × List Char
  | [], st => (st, [])
  | c :: cs, st =>
    if c = '_' then scanMantissa hex cs st
    else if c = '.' then
      if st.sawdot then (st, c :: cs) else scanMantissa hex cs { st with sawdot := true }
    else if isDigit c then
      scanMantissa hex cs (st.push (if hex then 16 else 10) (digitVal c))
    else if hex && isHexLetter c then
      scanMantissa hex cs (st.push 16 (lower c - 97 + 10))
    else (st, c :: cs)

/-- The exponent digit loop of `readFloat`: digits and underscores; the
value stops growing once it has reached 10000. -/
def scanExpDigits : List Char → Nat → Nat × List Char
  | [], e => (e, [])
  | c :: cs, e =>
    if c = '_' then scanExpDigits cs e
    else if isDigit c then scanExpDigits cs (if e < 10000 then e * 10 + digitVal c else e)
    else (e, c :: cs)

/-- The optional exponent part of a literal: `none` when it is malformed (or
missing in base 16), else the signed exponent and the unread rest. -/
def scanExponent (hex : Bool) (s : List Char) : Option (Int × List Char) :=
  match s with
  | c :: cs =>
    if lower c = (if hex then 112 else 101) then
      let neg : Bool := cs.head? = some '-'
      let ds : List Char :=
        if cs.head? = some '+' ∨ cs.head? = some '-' then cs.tail else cs
      match ds with
      | d :: _ =>
        if isDigit d then
          let r := scanExpDigits ds 0
          some (if neg then -(r.1 : Int) else (r.1 : Int), r.2)
        else none
      | [] => none
    else if hex then none
    else some (0, s)
  | [] => if hex then none else some (0, [])

/-- The loop of `underscoreOK`, `saw` being the kind of the last byte:
`'0'` a digit or base prefix, `'_'` an underscore, `'!'` anything else. -/
def underscoreLoop (hex : Bool) : List Char → Char → Bool
  | [], saw => saw != '_'
  | c :: cs, saw =>
    if isDigit c || (hex && isHexLetter c) then underscoreLoop hex cs '0'
    else if c = '_' then
      if saw != '0' then false else underscoreLoop hex cs '_'
    else if saw = '_' then false
    else underscoreLoop hex cs '!'

/-- The function `underscoreOK` of strconv: underscores appear only between
digits or between a base prefix and a digit. -/
def underscoreOK (s : List Char) : Bool :=
  let body : List Char :=
    if s.head? = some '-' ∨ s.head? = some '+' then s.tail else s
  match body with
  | c0 :: c1 :: rest =>
    if c0 = '0' ∧ (lower c1 = 98 ∨ lower c1 = 111 ∨ lower c1 = 120) then
      underscoreLoop (decide (lower c1 = 120)) rest '0'
    else underscoreLoop false body '^'
  | _ => underscoreLoop false body '^'

/-- The base-prefix test of `readFloat`,
`i+2 < len(s) && s[i] == '0' && lower(s[i+1]) == 'x'`. -/
def hexPrefixed : List Char → Bool
  | c0 :: c1 :: _ :: _ => decide (c0 = '0') && decide (lower c1 = 120)
  | _ => false

/-- A literal scanned by `readFloat`: sign, base, mantissa and exponent. -/
structure Literal where
  neg : Bool
  hex : Bool
  mantissa : Mantissa
  exp : Int
deriving DecidableEq, Repr

/-- The function `readFloat` of strconv, required to consume the whole
string as `ParseFloat` demands: optional sign, optional `0x` prefix (only
when a byte follows it), mantissa with at least one digit, optional
exponent, underscores well placed.  The mantissa is kept exactly; Go keeps
19 digits and a truncation flag and falls back to exact decimal conversion,
which yields the same correctly rounded result. -/
def readFloat (s : List Char) : Option Literal :=
  match s with
  | [] => none
  | c :: cs =>
    let neg : Bool := decide (c = '-')
    let body : List Char := if c = '+' ∨ c = '-' then cs else s
    let hex : Bool := hexPrefixed body
    let m := scanMantissa hex (if hex then body.drop 2 else body) ⟨0, false, false, 0⟩
    if !m.1.sawdigits then none
    else
      match scanExponent hex m.2 with
      | none => none
      | some (e, rest) =>
        if rest ≠ [] then none
        else if !underscoreOK s then none
        else some ⟨neg, hex, m.1, e⟩

/-- The float64 nearest to the number a literal denotes, with the overflow
flag: mantissa times `10 ^ (exp - fracDigits)` in base 10, mantissa times
`2 ^ (exp - 4 * fracDigits)` in base 16. -/
def Literal.toFloat64 (l : Literal) : Float64 × Bool :=
  let base : Nat := if l.hex then 2 else 10
  let e : Int := l.exp - (if l.hex then 4 * (l.mantissa.fracDigits : Int) else l.mantissa.fracDigits)
  if 0 ≤ e then Float64.round l.neg (l.mantissa.mant * base ^ e.toNat) 1
  else Float64.round l.neg l.mantissa.mant (base ^ (-e).toNat)

/-- The call `strconv.ParseFloat(s, 64)`: the value and the error it returns.  A
string that is not a well-formed literal gives `0` and a syntax error; a
well-formed literal gives the nearest float64, and beyond the float64 range
the infinity of its sign with a range error. -/
def ParseFloat (s : String) : Float64 × Option NumError :=
  match special s.data with
  | some (f, n) => if n = s.data.length then (f, none) else (Float64.zero, some .invalid)
  | none =>
    match readFloat s.data with
    | none => (Float64.zero, some .invalid)
    | some l =>
      let r := l.toFloat64
      (r.1, if r.2 then some .outOfRange else none)

/-! ## Calendar dates -/

/-- A Go `time.Time` holding a calendar date at midnight UTC (all times the
program builds come from date-only layouts): the number of days since
1 January of year 1, which is the zero `time.Time`. -/
structure Time where
  day : Int
deriving DecidableEq, Repr

/-- The zero `time.Time`, returned by `time.Parse` along with an error. -/
def Time.zero : Time := ⟨0⟩

/-- The call `t.AddDate(0, 0, i)` on a midnight-UTC date: `i` days later (the
program passes `-i`). -/
def Time.addDays (t : Time) (i : Int) : Time := ⟨t.day + i⟩

/-- Whether a year of the proleptic Gregorian calendar is a leap year. -/
def isLeap (year : Nat) : Bool :=
  year % 4 = 0 && (year % 100 != 0 || year % 400 = 0)

/-- Number of days of a month (`daysIn` of package time). -/
def daysIn (month year : Nat) : Nat :=
  if month = 2 then (if isLeap year then 29 else 28)
  else if month = 4 ∨ month = 6 ∨ month = 9 ∨ month = 11 then 30
  else 31

/-- Days of a year that precede the first day of a month. -/
def daysBeforeMonth (month year : Nat) : Nat :=
  ((List.range month).tail.map (fun m => daysIn m year)).sum

/-- The call `time.Date(year, month, day, 0, 0, 0, 0, time.UTC)` for a valid
date. -/
def Time.ofDate (year month day : Nat) : Time :=
  let y : Int := (year : Int) - 1
  ⟨365 * y + y / 4 - y / 100 + y / 400 + daysBeforeMonth month year + ((day : Int) - 1)⟩

/-- The function `time.Parse` with the layout `02<sep>01<sep>2006` (the program uses
`02/01/2006` and `02.01.2006`): exactly two digits, the separator, two
digits, the separator, four digits and nothing more, the month in 1..12
and the day within the month; `none` is the error return. -/
def timeParse (sep : Char) (value : String) : Option Time :=
  match value.data with
  | [d1, d2, s1, m1, m2, s2, y1, y2, y3, y4] =>
    if isDigit d1 && isDigit d2 && isDigit m1 && isDigit m2 && isDigit y1 && isDigit y2
        && isDigit y3 && isDigit y4 && decide (s1 = sep) && decide (s2 = sep) then
      let day := digitVal d1 * 10 + digitVal d2
      let month := digitVal m1 * 10 + digitVal m2
      let year := digitVal y1 * 1000 + digitVal y2 * 100 + digitVal y3 * 10 + digitVal y4
      if 1 ≤ month ∧ month ≤ 12 ∧ 1 ≤ day ∧ day ≤ daysIn month year then
        some (Time.ofDate year month day)
      else none
    else none
  | _ => none

/-! ## Records -/

/-- The record `Rate` of `main.go`: one `Valute` element of the feed, every
field a string. -/
structure Rate where
  ID : String
  NumCode : String
  CharCode : String
  Nominal : String
  Name : String
  Value : String
  VunitRate : String
deriving DecidableEq, Repr

/-- The record `ValCurs` of `main.go`: a decoded feed document. -/
structure ValCurs where
  Date : String
  Rate : List Rate
deriving DecidableEq, Repr

/-- The record `CurrencyRate` of `main.go`. -/
structure CurrencyRate where
  Date : Time
  Code : String
  Name : String
  Nominal : Int
  Value : Float64
  UnitRate : Float64
deriving DecidableEq, Repr

/-- The zero value of `CurrencyRate`. -/
def CurrencyRate.zero : CurrencyRate :=
  { Date := Time.zero, Code := "", Name := "", Nominal := 0,
    Value := Float64.zero, UnitRate := Float64.zero }

/-! ## getCurrenciesForLastDays -/

/-- The body of the inner loop of `getCurrenciesForLastDays`: the
`CurrencyRate` built from one feed entry and the `Date` attribute of its
document.  Every error of the parsing functions is discarded and the
returned value kept. -/
def convert (docDate : String) (valute : Rate) : CurrencyRate :=
  let RateDate := (timeParse '.' docDate).getD Time.zero
  let nominal := (Atoi valute.Nominal).1
  let value := replaceAll valute.Value ',' '.'
  let FloatValue := (ParseFloat value).1
  let unitRate := replaceAll valute.VunitRate ',' '.'
  let FloatUnitRate := (ParseFloat unitRate).1
  { Date := RateDate
    Name := valute.Name
    Code := valute.CharCode
    Nominal := nominal
    Value := FloatValue
    UnitRate := FloatUnitRate }

/-- The inner loop: one `append` per entry of the document, in feed order. -/
def appendRates (allRates : List CurrencyRate) (valCurs : ValCurs) : List CurrencyRate :=
  valCurs.Rate.foldl (fun acc valute => acc ++ [convert valCurs.Date valute]) allRates

/-- What happens for one requested date between building the request and
decoding the response: the four ways the loop body can fail, or the decoded
document. -/
inductive FetchOutcome
  | requestError
  | transportError
  | badStatus (code : Int)
  | decodeError
  | document (valCurs : ValCurs)
deriving DecidableEq, Repr

/-- The errors `getCurrenciesForLastDays` returns, with the requested date
that the message names. -/
inductive CollectError
  | dateParse
  | request (date : Time)
  | transport (date : Time)
  | status (date : Time) (code : Int)
  | decode (date : Time)
deriving DecidableEq, Repr

/-- Result of a run of `getCurrenciesForLastDays`: the dates for which an
HTTP request was sent, in order, and the two values returned. -/
structure Run where
  requested : List Time
  rates : List CurrencyRate
  err : Option CollectError
deriving DecidableEq, Repr

/-- The loop `for i := 0; i < days; i++` of `getCurrenciesForLastDays`,
with `remaining` iterations left, `i` the loop variable, `requested` the
requests sent so far and `allRates` the slice built so far.  Every failure
returns `nil` and the error. -/
def collectLoop (fetch : Time → FetchOutcome) (start : Time) :
    (remaining : Nat) → (i : Int) → (requested : List Time) →
    (allRates : List CurrencyRate) → Run
  | 0, _, requested, allRates => ⟨requested, allRates, none⟩
  | remaining + 1, i, requested, allRates =>
    let date := start.addDays (-i)
    match fetch date with
    | .requestError => ⟨requested, [], some (.request date)⟩
    | .transportError => ⟨requested ++ [date], [], some (.transport date)⟩
    | .badStatus code => ⟨requested ++ [date], [], some (.status date code)⟩
    | .decodeError => ⟨requested ++ [date], [], some (.decode date)⟩
    | .document valCurs =>
      collectLoop fetch start remaining (i + 1) (requested ++ [date])
        (appendRates allRates valCurs)

/-- The function `getCurrenciesForLastDays` of `main.go`, the work done for
one requested date (request, response status, XML decoding) being given by
`fetch`. -/
def getCurrenciesForLastDays (fetch : Time → FetchOutcome) (startDate : String)
    (days : Int) : Run :=
  match timeParse '/' startDate with
  | none => ⟨[], [], some .dateParse⟩
  | some start => collectLoop fetch start days.toNat 0 [] []

/-! ## analyzeRates -/

/-- The variables of the loop of `analyzeRates`. -/
structure Analysis where
  maxRate : CurrencyRate
  minRate : CurrencyRate
  sum : Float64
  count : Int
deriving DecidableEq, Repr

/-- One iteration of the loop of `analyzeRates`. -/
def analyzeStep (acc : Analysis) (rate : CurrencyRate) : Analysis :=
  { maxRate := if Float64.gt rate.UnitRate acc.maxRate.UnitRate then rate else acc.maxRate
    minRate := if Float64.lt rate.UnitRate acc.minRate.UnitRate then rate else acc.minRate
    sum := Float64.add acc.sum rate.UnitRate
    count := acc.count + 1 }

/-- The function `analyzeRates` of `main.go`; `none` stands for a run-time
panic (the index expression `rates[0]` out of range). -/
def analyzeRates (rates : List CurrencyRate) :
    Option (CurrencyRate × CurrencyRate × Float64) :=
  if rates.length = 0 then
    some (CurrencyRate.zero, CurrencyRate.zero, Float64.zero)
  else
    match rates[0]? with
    | none => none
    | some first =>
      let acc := rates.foldl analyzeStep
        { maxRate := first, minRate := first, sum := Float64.zero, count := 0 }
      let avgRate :=
        if 0 < acc.count then Float64.div acc.sum (Float64.ofInt acc.count) else Float64.zero
      some (acc.maxRate, acc.minRate, avgRate)

/-! ## Definitions used in the statements -/

/-- The integer a string of decimal digits denotes. -/
def decimalValue (ds : List Char) : Nat :=
  ds.foldl (fun n c => n * 10 + digitVal c) 0

/-- A byte of an unsigned decimal numeral written with a point. -/
def plainChar (c : Char) : Prop := isDigit c = true ∨ c = '.'

/-- A running selection: keep `m` unless the new element `r` is better. -/
def selectStep (better : Float64 → Float64 → Bool) (m r : CurrencyRate) : CurrencyRate :=
  if better r.UnitRate m.UnitRate then r else m

/-- The exact arithmetic mean, a rational number, of the unit rates of a
sequence of observations. -/
def exactMean (rates : List CurrencyRate) : ℚ :=
  (rates.map (fun r => Float64.toRat r.UnitRate)).sum / (rates.length : ℚ)

/-- The mean magnitude of the unit rates of a sequence of observations. -/
def meanMagnitude (rates : List CurrencyRate) : ℚ :=
  (rates.map (fun r => |Float64.toRat r.UnitRate|)).sum / (rates.length : ℚ)

/-! ## Sample inputs -/

/-- Sample input: unit rates 2 and 1. -/
def boundsSample : List CurrencyRate :=
  [{ CurrencyRate.zero with UnitRate := Float64.ofInt 2 },
   { CurrencyRate.zero with UnitRate := Float64.ofInt 1 }]

/-- Sample input: unit rates 1, 2 and 6 of three currencies. -/
def avgSample : List CurrencyRate :=
  [{ CurrencyRate.zero with Code := "USD", UnitRate := Float64.ofInt 1 },
   { CurrencyRate.zero with Code := "EUR", UnitRate := Float64.ofInt 2 },
   { CurrencyRate.zero with Code := "GBP", UnitRate := Float64.ofInt 6 }]

/-- Sample input: the unit rates `0.1` and `0.2`, as `ParseFloat` reads
them. -/
def roundingSample : List CurrencyRate :=
  [{ CurrencyRate.zero with Code := "USD", UnitRate := (ParseFloat "0.1").1 },
   { CurrencyRate.zero with Code := "EUR", UnitRate := (ParseFloat "0.2").1 }]

/-- Sample input: twice the largest finite float64,
`1.7976931348623157e308`. -/
def overflowSample : List CurrencyRate :=
  [{ CurrencyRate.zero with Code := "USD", UnitRate := .finite false 2046 4503599627370495 },
   { CurrencyRate.zero with Code := "EUR", UnitRate := .finite false 2046 4503599627370495 }]

/-- Sample input with ties: unit rates 1, 2, 2 and 1. -/
def tieSample : List CurrencyRate :=
  [{ CurrencyRate.zero with Code := "A", UnitRate := Float64.ofInt 1 },
   { CurrencyRate.zero with Code := "B", UnitRate := Float64.ofInt 2 },
   { CurrencyRate.zero with Code := "C", UnitRate := Float64.ofInt 2 },
   { CurrencyRate.zero with Code := "D", UnitRate := Float64.ofInt 1 }]

/-- Sample feed entry for US dollars with the given numeric fields. -/
def sampleEntry (nominal value vunitRate : String) : Rate :=
  { ID := "R01235", NumCode := "840", CharCode := "USD", Nominal := nominal,
    Name := "US Dollar", Value := value, VunitRate := vunitRate }

/-- Sample document: two entries dated 15 March 2024. -/
def sampleDoc : ValCurs :=
  { Date := "15.03.2024"
    Rate := [sampleEntry "1" "93,4409" "93,4409",
      { ID := "R01820", NumCode := "392", CharCode := "JPY", Nominal := "100",
        Name := "Japanese Yen", Value := "61,2345", VunitRate := "0,612345" }] }

/-- Sample feed: every requested date yields the sample document. -/
def sampleFetch : Time → FetchOutcome := fun _ => .document sampleDoc

/-- Sample feed whose transport fails for 13 March 2024 (day 738957). -/
def failingFetch : Time → FetchOutcome :=
  fun t => if t.day = 738957 then .transportError else .document sampleDoc

/-! ## Lemmas on float64 comparisons -/

namespace Float64

theorem lt_eq_true_iff (a b : Float64) :
    lt a b = true ↔ a.isNaN = false ∧ b.isNaN = false ∧ a.key < b.key := by
  simp [lt, and_assoc]

theorem le_eq_true_iff (a b : Float64) :
    le a b = true ↔ a.isNaN = false ∧ b.isNaN = false ∧ a.key ≤ b.key := by
  simp [le, and_assoc]

theorem eq_eq_true_iff (a b : Float64) :
    eq a b = true ↔ a.isNaN = false ∧ b.isNaN = false ∧ a.key = b.key := by
  simp [eq, and_assoc]

end Float64

/-! ## The float64 model: order and rounding -/

namespace Float64

theorem pack_shape (neg : Bool) (k : Nat) :
    ((pack neg k).2 = false ∧ ∃ e f, (pack neg k).1 = finite neg e f) ∨
      ((pack neg k).2 = true ∧ (pack neg k).1 = inf neg) := by
  unfold pack
  by_cases h : k / 4503599627370496 < 2047
  · rw [dif_pos h]; exact Or.inl ⟨rfl, _, _, rfl⟩
  · rw [dif_neg h]; exact Or.inr ⟨rfl, rfl⟩

theorem round_shape (neg : Bool) (num den : Nat) :
    ((round neg num den).2 = false ∧ ∃ e f, (round neg num den).1 = finite neg e f) ∨
      ((round neg num den).2 = true ∧ (round neg num den).1 = inf neg) := by
  unfold round
  by_cases h : num = 0 ∨ den = 0
  · rw [if_pos h]; exact Or.inl ⟨rfl, _, _, rfl⟩
  · rw [if_neg h]; exact pack_shape _ _

theorem le_zero_of_nonneg (x : Float64) (hn : x.isNaN = false) (hs : x.isNeg = false) :
    le zero x = true := by
  rw [Float64.le_eq_true_iff]
  refine ⟨rfl, hn, ?_⟩
  have h0 : zero.key = 0 := by decide
  rw [h0]
  unfold key
  simp [hs]

theorem le_zero_round (num den : Nat) : le zero (round false num den).1 = true := by
  rcases round_shape false num den with ⟨-, e, f, h⟩ | ⟨-, h⟩ <;>
    rw [h] <;> exact le_zero_of_nonneg _ rfl rfl

theorem scaledMag_lt_of_lt (e1 e2 : Fin 2047) (f1 f2 : Fin 4503599627370496)
    (h : e1.val * 4503599627370496 + f1.val < e2.val * 4503599627370496 + f2.val) :
    scaledMag e1 f1 < scaledMag e2 f2 := by
  have hf1 := f1.isLt
  have hf2 := f2.isLt
  unfold scaledMag significand
  rcases Nat.lt_trichotomy e1.val e2.val with hlt | heq | hgt
  · -- e1 < e2
    have he2 : e2.val ≠ 0 := by omega
    simp only [he2, if_false]
    by_cases he1 : e1.val = 0
    · simp only [he1, if_true]
      calc f1.val * 2 ^ 1 < 4503599627370496 * 2 ^ 1 := by omega
        _ ≤ 4503599627370496 * 2 ^ e2.val :=
            Nat.mul_le_mul_left _ (Nat.pow_le_pow_right (by decide) (by omega))
        _ ≤ (4503599627370496 + f2.val) * 2 ^ e2.val :=
            Nat.mul_le_mul_right _ (by omega)
    · simp only [he1, if_false]
      calc (4503599627370496 + f1.val) * 2 ^ e1.val
          < (2 * 4503599627370496) * 2 ^ e1.val :=
            Nat.mul_lt_mul_of_pos_right (by omega) (by positivity)
        _ = 4503599627370496 * 2 ^ (e1.val + 1) := by rw [pow_succ]; ring
        _ ≤ 4503599627370496 * 2 ^ e2.val :=
            Nat.mul_le_mul_left _ (Nat.pow_le_pow_right (by decide) (by omega))
        _ ≤ (4503599627370496 + f2.val) * 2 ^ e2.val :=
            Nat.mul_le_mul_right _ (by omega)
  · have hf : f1.val < f2.val := by rw [heq] at h; omega
    rw [heq]
    apply Nat.mul_lt_mul_of_pos_right _ (by positivity)
    split_ifs <;> omega
  · exfalso
    have : (e2.val + 1) * 4503599627370496 ≤ e1.val * 4503599627370496 :=
      Nat.mul_le_mul_right _ (by omega)
    omega

theorem scaledMag_lt_iff (e1 e2 : Fin 2047) (f1 f2 : Fin 4503599627370496) :
    scaledMag e1 f1 < scaledMag e2 f2 ↔
      e1.val * 4503599627370496 + f1.val < e2.val * 4503599627370496 + f2.val := by
  constructor
  · intro h
    by_contra hcon
    rcases Nat.lt_or_ge (e2.val * 4503599627370496 + f2.val)
        (e1.val * 4503599627370496 + f1.val) with hlt | hge
    · have := scaledMag_lt_of_lt e2 e1 f2 f1 hlt
      omega
    · have heq : e1.val * 4503599627370496 + f1.val = e2.val * 4503599627370496 + f2.val := by
        omega
      have hf1 := f1.isLt
      have hf2 := f2.isLt
      have he : e1.val = e2.val := by omega
      have hf : f1.val = f2.val := by omega
      have h1 : e1 = e2 := Fin.ext he
      have h2 : f1 = f2 := Fin.ext hf
      subst h1 h2
      exact absurd h (lt_irrefl _)
  · exact scaledMag_lt_of_lt e1 e2 f1 f2

theorem scaledMag_eq_zero_iff (e : Fin 2047) (f : Fin 4503599627370496) :
    scaledMag e f = 0 ↔ e.val * 4503599627370496 + f.val = 0 := by
  unfold scaledMag significand
  have hp : ∀ k : Nat, 2 ^ k ≠ 0 := fun k => by positivity
  constructor
  · intro h
    rcases Nat.mul_eq_zero.1 h with h | h
    · split_ifs at h with he
      · omega
      · omega
    · exact absurd h (hp _)
  · intro h
    have he : e.val = 0 := by omega
    have hf : f.val = 0 := by omega
    simp [he, hf]

theorem toRat_finite (neg : Bool) (e : Fin 2047) (f : Fin 4503599627370496) :
    toRat (finite neg e f) =
      (if neg then -(scaledMag e f : ℚ) else (scaledMag e f : ℚ)) * (2 : ℚ) ^ (-1075 : ℤ) := by
  have hs : (2 : ℚ) ^ scale e
      = (2 : ℚ) ^ (if e.val = 0 then 1 else e.val) * (2 : ℚ) ^ (-1075 : ℤ) := by
    unfold scale
    rw [sub_eq_add_neg, zpow_add₀ (by norm_num : (2 : ℚ) ≠ 0)]
    congr 1
    split_ifs
    · norm_num
    · rw [zpow_natCast]
  simp only [toRat, scaledMag]
  rw [hs]
  push_cast
  generalize (2 : ℚ) ^ (-1075 : ℤ) = c
  cases neg
  · rw [if_neg Bool.false_ne_true, if_neg Bool.false_ne_true]; ring
  · rw [if_pos rfl, if_pos rfl]; ring

/-- The order key agrees with the order of the numbers denoted: for finite
values, `key a < key b` exactly when `a` denotes a smaller number than
`b`. -/
theorem key_lt_key_iff (na nb : Bool) (ea eb : Fin 2047) (fa fb : Fin 4503599627370496) :
    (finite na ea fa).key < (finite nb eb fb).key ↔
      toRat (finite na ea fa) < toRat (finite nb eb fb) := by
  rw [toRat_finite, toRat_finite]
  have hc : (0 : ℚ) < (2 : ℚ) ^ (-1075 : ℤ) := by positivity
  rw [mul_lt_mul_right hc]
  have hlt := scaledMag_lt_iff ea eb fa fb
  have hgt := scaledMag_lt_iff eb ea fb fa
  have hza := scaledMag_eq_zero_iff ea fa
  have hzb := scaledMag_eq_zero_iff eb fb
  simp only [key, isNeg, mag]
  cases na <;> cases nb <;> simp only [if_true, if_false, Bool.false_eq_true]
  · rw [Nat.cast_lt, ← hlt]; exact_mod_cast Iff.rfl
  · constructor
    · intro h; omega
    · intro h
      have h1 : (0 : ℚ) ≤ (scaledMag ea fa : ℚ) := Nat.cast_nonneg _
      have h2 : (0 : ℚ) ≤ (scaledMag eb fb : ℚ) := Nat.cast_nonneg _
      linarith
  · constructor
    · intro h
      have hne : ¬ (scaledMag ea fa = 0 ∧ scaledMag eb fb = 0) := by
        rw [hza, hzb]; omega
      have h1 : (0 : ℚ) ≤ (scaledMag ea fa : ℚ) := Nat.cast_nonneg _
      have h2 : (0 : ℚ) ≤ (scaledMag eb fb : ℚ) := Nat.cast_nonneg _
      rcases Nat.eq_zero_or_pos (scaledMag ea fa) with h0 | hpos
      · have : 0 < scaledMag eb fb := Nat.pos_of_ne_zero (fun hb => hne ⟨h0, hb⟩)
        have : (0 : ℚ) < (scaledMag eb fb : ℚ) := by exact_mod_cast this
        linarith
      · have : (0 : ℚ) < (scaledMag ea fa : ℚ) := by exact_mod_cast hpos
        linarith
    · intro h
      have hne : ¬ (scaledMag ea fa = 0 ∧ scaledMag eb fb = 0) := by
        rintro ⟨h1, h2⟩
        rw [h1, h2] at h
        simp at h
      rw [hza, hzb] at hne
      omega
  · have : -(scaledMag ea fa : ℚ) < -(scaledMag eb fb : ℚ) ↔ scaledMag eb fb < scaledMag ea fa := by
      rw [neg_lt_neg_iff]; exact_mod_cast Iff.rfl
    rw [this, hgt]
    omega

theorem bitLenAux_zero (fuel : Nat) : bitLenAux fuel 0 = 0 := by
  cases fuel <;> simp [bitLenAux]

theorem bitLenAux_spec (fuel : Nat) : ∀ n : Nat, 0 < n → n ≤ fuel →
    1 ≤ bitLenAux fuel n ∧ 2 ^ (bitLenAux fuel n - 1) ≤ n ∧ n < 2 ^ bitLenAux fuel n := by
  induction fuel with
  | zero => intro n h1 h2; omega
  | succ fuel ih =>
    intro n hpos hle
    have hne : n ≠ 0 := by omega
    simp only [bitLenAux, hne, if_false]
    rcases Nat.eq_zero_or_pos (n / 2) with h0 | hhalf
    · have hn1 : n = 1 := by omega
      rw [h0, bitLenAux_zero]
      subst hn1
      simp
    · obtain ⟨hb1, hlo, hhi⟩ := ih (n / 2) hhalf (by omega)
      refine ⟨by omega, ?_, ?_⟩
      · have : bitLenAux fuel (n / 2) + 1 - 1 = (bitLenAux fuel (n / 2) - 1) + 1 := by omega
        rw [this, pow_succ]
        omega
      · rw [pow_succ]
        omega

theorem bitLen_spec (n : Nat) (hn : 0 < n) :
    1 ≤ bitLen n ∧ 2 ^ (bitLen n - 1) ≤ n ∧ n < 2 ^ bitLen n :=
  bitLenAux_spec n n hn (le_refl n)

theorem divRoundEven_near (n d : Nat) (hd : 0 < d) :
    |(divRoundEven n d : ℚ) - (n : ℚ) / d| ≤ 1 / 2 := by
  have hdq : (0 : ℚ) < d := by exact_mod_cast hd
  have hdecomp : (n : ℚ) / d = (n / d : Nat) + (n % d : Nat) / (d : ℚ) := by
    have h := Nat.div_add_mod n d
    have hq : (n : ℚ) = (d : ℚ) * (n / d : Nat) + (n % d : Nat) := by exact_mod_cast h.symm
    field_simp
    linarith
  have hr : n % d < d := Nat.mod_lt _ hd
  have hrq : ((n % d : Nat) : ℚ) < d := by exact_mod_cast hr
  have hr0 : (0 : ℚ) ≤ ((n % d : Nat) : ℚ) := Nat.cast_nonneg _
  unfold divRoundEven
  simp only
  rw [hdecomp]
  split_ifs with h
  · have h2 : d ≤ 2 * (n % d) := by rcases h with h | h <;> omega
    have h2q : (d : ℚ) ≤ 2 * ((n % d : Nat) : ℚ) := by exact_mod_cast h2
    have hfrac : (1 : ℚ) / 2 ≤ ((n % d : Nat) : ℚ) / d := by
      rw [le_div_iff₀ hdq]; linarith
    have hfrac1 : ((n % d : Nat) : ℚ) / d < 1 := by
      rw [div_lt_one hdq]; exact hrq
    push_cast
    rw [abs_le]
    constructor <;> linarith
  · have h2 : 2 * (n % d) ≤ d := by
      by_contra hcon
      exact h (Or.inl (by omega))
    have h2q : 2 * ((n % d : Nat) : ℚ) ≤ d := by exact_mod_cast h2
    have hfrac : ((n % d : Nat) : ℚ) / d ≤ 1 / 2 := by
      rw [div_le_iff₀ hdq]; linarith
    have hfrac0 : 0 ≤ ((n % d : Nat) : ℚ) / d := div_nonneg hr0 hdq.le
    rw [abs_le]
    constructor <;> linarith

theorem reaches_iff (num den : Nat) (hd : 0 < den) (e : Int) :
    (if 0 ≤ e then decide (den * 2 ^ e.toNat ≤ num)
      else decide (den ≤ num * 2 ^ (-e).toNat)) = true ↔ (2 : ℚ) ^ e ≤ (num : ℚ) / den := by
  have hdq : (0 : ℚ) < den := by exact_mod_cast hd
  by_cases he : 0 ≤ e
  · obtain ⟨k, rfl⟩ := Int.eq_ofNat_of_zero_le he
    simp only [he, if_true, Int.toNat_ofNat, decide_eq_true_eq, zpow_natCast]
    rw [le_div_iff₀ hdq]
    constructor
    · intro h
      have : ((den * 2 ^ k : Nat) : ℚ) ≤ num := by exact_mod_cast h
      push_cast at this
      linarith
    · intro h
      have : ((den * 2 ^ k : Nat) : ℚ) ≤ num := by push_cast; linarith
      exact_mod_cast this
  · obtain ⟨k, hk⟩ : ∃ k : Nat, e = -(k : Int) := ⟨(-e).toNat, by omega⟩
    subst hk
    have hto : (- -(k : Int)).toNat = k := by omega
    simp only [he, if_false, hto, decide_eq_true_eq, zpow_neg, zpow_natCast]
    have hp : (0 : ℚ) < 2 ^ k := by positivity
    rw [le_div_iff₀ hdq, inv_mul_le_iff₀ hp]
    constructor
    · intro h
      have : ((den : Nat) : ℚ) ≤ ((num * 2 ^ k : Nat) : ℚ) := by exact_mod_cast h
      push_cast at this
      linarith
    · intro h
      have : ((den : Nat) : ℚ) ≤ ((num * 2 ^ k : Nat) : ℚ) := by push_cast; linarith
      exact_mod_cast this

/-- The binary exponent `floorLog2` computes is the one of the quotient:
`2 ^ e ≤ num / den < 2 ^ (e + 1)`. -/
theorem floorLog2_spec (num den : Nat) (hn : 0 < num) (hd : 0 < den) :
    (2 : ℚ) ^ floorLog2 num den ≤ (num : ℚ) / den ∧
      (num : ℚ) / den < (2 : ℚ) ^ (floorLog2 num den + 1) := by
  have hdq : (0 : ℚ) < den := by exact_mod_cast hd
  have hnq : (0 : ℚ) < num := by exact_mod_cast hn
  obtain ⟨ha1, halo, hahi⟩ := bitLen_spec num hn
  obtain ⟨hb1, hblo, hbhi⟩ := bitLen_spec den hd
  have two : (2 : ℚ) ≠ 0 := by norm_num
  -- bounds on num and den as integer powers
  have hnlo : (2 : ℚ) ^ ((bitLen num : Int) - 1) ≤ num := by
    have : ((2 ^ (bitLen num - 1) : Nat) : ℚ) ≤ num := by exact_mod_cast halo
    have he : ((bitLen num : Int) - 1) = ((bitLen num - 1 : Nat) : Int) := by omega
    rw [he, zpow_natCast]
    exact_mod_cast this
  have hnhi : (num : ℚ) < (2 : ℚ) ^ (bitLen num : Int) := by
    rw [zpow_natCast]; exact_mod_cast hahi
  have hdlo : (2 : ℚ) ^ ((bitLen den : Int) - 1) ≤ den := by
    have : ((2 ^ (bitLen den - 1) : Nat) : ℚ) ≤ den := by exact_mod_cast hblo
    have he : ((bitLen den : Int) - 1) = ((bitLen den - 1 : Nat) : Int) := by omega
    rw [he, zpow_natCast]
    exact_mod_cast this
  have hdhi : (den : ℚ) < (2 : ℚ) ^ (bitLen den : Int) := by
    rw [zpow_natCast]; exact_mod_cast hbhi
  have hreach := reaches_iff num den hd ((bitLen num : Int) - (bitLen den : Int))
  unfold floorLog2
  simp only
  by_cases hr : (if 0 ≤ (bitLen num : Int) - (bitLen den : Int)
      then decide (den * 2 ^ ((bitLen num : Int) - (bitLen den : Int)).toNat ≤ num)
      else decide (den ≤ num * 2 ^ (-((bitLen num : Int) - (bitLen den : Int))).toNat)) = true
  · rw [if_pos hr]
    refine ⟨hreach.1 hr, ?_⟩
    -- num / den < 2 ^ a / 2 ^ (b - 1)
    rw [div_lt_iff₀ hdq]
    calc (num : ℚ) < (2 : ℚ) ^ (bitLen num : Int) := hnhi
      _ = (2 : ℚ) ^ ((bitLen num : Int) - (bitLen den : Int) + 1)
            * (2 : ℚ) ^ ((bitLen den : Int) - 1) := by
          rw [← zpow_add₀ two]; congr 1; ring
      _ ≤ (2 : ℚ) ^ ((bitLen num : Int) - (bitLen den : Int) + 1) * den :=
          mul_le_mul_of_nonneg_left hdlo (by positivity)
  · rw [if_neg hr]
    have hnot : ¬ (2 : ℚ) ^ ((bitLen num : Int) - (bitLen den : Int)) ≤ (num : ℚ) / den :=
      fun h => hr (hreach.2 h)
    have e1 : (bitLen num : Int) - (bitLen den : Int) - 1 + 1
        = (bitLen num : Int) - (bitLen den : Int) := by ring
    refine ⟨?_, by rw [e1]; exact lt_of_not_le hnot⟩
    rw [le_div_iff₀ hdq]
    calc (2 : ℚ) ^ ((bitLen num : Int) - (bitLen den : Int) - 1) * den
        ≤ (2 : ℚ) ^ ((bitLen num : Int) - (bitLen den : Int) - 1)
            * (2 : ℚ) ^ (bitLen den : Int) :=
          mul_le_mul_of_nonneg_left hdhi.le (by positivity)
      _ = (2 : ℚ) ^ ((bitLen num : Int) - 1) := by
          rw [← zpow_add₀ two]; congr 1; ring
      _ ≤ num := hnlo

theorem toRat_of (neg : Bool) (a b : Nat) (ha : a < 2047) (hb : b < 4503599627370496)
    (sig : Nat) (sc : Int) (hsig : (if a = 0 then b else 4503599627370496 + b) = sig)
    (hsc : (if a = 0 then (1 : Int) else (a : Int)) - 1075 = sc) :
    toRat (finite neg ⟨a, ha⟩ ⟨b, hb⟩) = (if neg then -1 else 1) * (sig : ℚ) * (2 : ℚ) ^ sc := by
  subst hsig hsc
  simp only [toRat, significand, scale]

/-- Decoding of a packed value: with `t` the exponent term and `m` a rounded
53-bit significand (`m ≤ 2 ^ 53`, and `2 ^ 52 ≤ m` unless `t = 0`), the
float64 packed from `t * 2 ^ 52 + m` denotes `± m * 2 ^ (t - 1074)`. -/
theorem toRat_pack (neg : Bool) (t m : Nat) (hm : m ≤ 9007199254740992)
    (hnorm : 1 ≤ t → 4503599627370496 ≤ m)
    (hfin : (pack neg (t * 4503599627370496 + m)).2 = false) :
    toRat (pack neg (t * 4503599627370496 + m)).1 =
      (if neg then -1 else 1) * (m : ℚ) * (2 : ℚ) ^ ((t : Int) - 1074) := by
  have two : (2 : ℚ) ≠ 0 := by norm_num
  unfold pack at hfin ⊢
  by_cases h : (t * 4503599627370496 + m) / 4503599627370496 < 2047
  · rw [dif_pos h]
    simp only
    rcases Nat.lt_or_ge m 9007199254740992 with hlt2 | hge2
    · apply toRat_of
      · split_ifs with h0
        · omega
        · have := hnorm
          omega
      · split_ifs with h0
        · have := hnorm
          omega
        · have := hnorm
          omega
    · have hm2 : m = 9007199254740992 := by omega
      rw [toRat_of neg _ _ _ _ 4503599627370496 ((t : Int) - 1074 + 1)
        (by split_ifs <;> omega) (by split_ifs <;> omega)]
      rw [zpow_add_one₀ two, hm2]
      push_cast
      ring
  · rw [dif_neg h] at hfin
    cases hfin

/-- The scaled quotient the rounding divides out: `N / D = num / den * 2 ^ sh`. -/
theorem scaled_quotient (num den : Nat) (hd : 0 < den) (sh : Int) :
    (((if 0 ≤ sh then num * 2 ^ sh.toNat else num : Nat) : ℚ)
        / ((if 0 ≤ sh then den else den * 2 ^ (-sh).toNat : Nat) : ℚ))
      = (num : ℚ) / den * (2 : ℚ) ^ sh := by
  have hdq : (den : ℚ) ≠ 0 := by exact_mod_cast hd.ne'
  by_cases h : 0 ≤ sh
  · obtain ⟨k, rfl⟩ := Int.eq_ofNat_of_zero_le h
    simp only [h, if_true, Int.toNat_ofNat, zpow_natCast]
    push_cast
    field_simp
  · obtain ⟨k, hk⟩ : ∃ k : Nat, sh = -(k : Int) := ⟨(-sh).toNat, by omega⟩
    subst hk
    have hto : (- -(k : Int)).toNat = k := by omega
    simp only [h, if_false, hto, zpow_neg, zpow_natCast]
    push_cast
    field_simp

theorem divRoundEven_scaled (num den : Nat) (hd : 0 < den) (sh : Int) :
    |((if 0 ≤ sh then divRoundEven (num * 2 ^ sh.toNat) den
        else divRoundEven num (den * 2 ^ (-sh).toNat) : Nat) : ℚ)
      - (num : ℚ) / den * (2 : ℚ) ^ sh| ≤ 1 / 2 := by
  rw [← scaled_quotient num den hd sh]
  by_cases h : 0 ≤ sh
  · simp only [h, if_true]
    exact divRoundEven_near _ _ hd
  · simp only [h, if_false]
    exact divRoundEven_near _ _ (Nat.mul_pos hd (by positivity))

/-- What `round` computes for a positive quotient: with `E` the binary
exponent of `num / den`, not below `-1022`, it packs `E + 1022` and the
53-bit significand `m`, the integer nearest to `num / den * 2 ^ (52 - E)`. -/
theorem round_core (neg : Bool) (num den : Nat) (hn : 0 < num) (hd : 0 < den) :
    ∃ m : Nat,
      round neg num den =
        pack neg ((max (floorLog2 num den) (-1022) + 1022).toNat * 4503599627370496 + m) ∧
      |(m : ℚ) - (num : ℚ) / den * (2 : ℚ) ^ (52 - max (floorLog2 num den) (-1022))| ≤ 1 / 2 ∧
      m ≤ 9007199254740992 ∧
      (1 ≤ (max (floorLog2 num den) (-1022) + 1022).toNat → 4503599627370496 ≤ m) := by
  have two : (2 : ℚ) ≠ 0 := by norm_num
  obtain ⟨hlo, hhi⟩ := floorLog2_spec num den hn hd
  have hne : ¬ (num = 0 ∨ den = 0) := by omega
  have hE1 : -1022 ≤ max (floorLog2 num den) (-1022) := le_max_right _ _
  have hEe : floorLog2 num den ≤ max (floorLog2 num den) (-1022) := le_max_left _ _
  generalize hE : max (floorLog2 num den) (-1022) = E at hE1 hEe
  have hnear := divRoundEven_scaled num den hd (52 - E)
  refine ⟨(if 0 ≤ 52 - E then divRoundEven (num * 2 ^ (52 - E).toNat) den
      else divRoundEven num (den * 2 ^ (-(52 - E)).toNat)), ?_, hnear, ?_⟩
  · unfold round
    rw [if_neg hne]
    simp only [hE]
  generalize (if 0 ≤ 52 - E then divRoundEven (num * 2 ^ (52 - E).toNat) den
      else divRoundEven num (den * 2 ^ (-(52 - E)).toNat)) = m at hnear ⊢
  rw [abs_le] at hnear
  have hp52 : (0 : ℚ) < (2 : ℚ) ^ (52 - E) := by positivity
  have hyhi : (num : ℚ) / den * (2 : ℚ) ^ (52 - E) < 9007199254740992 := by
    have h1 : (num : ℚ) / den < (2 : ℚ) ^ (E + 1) := by
      refine lt_of_lt_of_le hhi ?_
      apply zpow_le_zpow_right₀ (by norm_num)
      omega
    calc (num : ℚ) / den * (2 : ℚ) ^ (52 - E)
        < (2 : ℚ) ^ (E + 1) * (2 : ℚ) ^ (52 - E) := mul_lt_mul_of_pos_right h1 hp52
      _ = (2 : ℚ) ^ (53 : Int) := by rw [← zpow_add₀ two]; congr 1; ring
      _ = 9007199254740992 := by norm_num
  constructor
  · by_contra hcon
    have : (9007199254740992 : ℚ) + 1 ≤ (m : ℚ) := by
      have : 9007199254740992 + 1 ≤ m := by omega
      exact_mod_cast this
    linarith [hnear.2]
  · intro h1
    have hgt : -1022 < E := by omega
    have hEq : E = floorLog2 num den := by
      rw [← hE]
      rcases max_choice (floorLog2 num den) (-1022) with h | h
      · exact h
      · rw [h] at hE; omega
    have hylo : (4503599627370496 : ℚ) ≤ (num : ℚ) / den * (2 : ℚ) ^ (52 - E) := by
      calc (4503599627370496 : ℚ) = (2 : ℚ) ^ (52 : Int) := by norm_num
        _ = (2 : ℚ) ^ E * (2 : ℚ) ^ (52 - E) := by rw [← zpow_add₀ two]; congr 1; ring
        _ ≤ (num : ℚ) / den * (2 : ℚ) ^ (52 - E) := by
            have hlo2 : (2 : ℚ) ^ E ≤ (num : ℚ) / den := by rw [hEq]; exact hlo
            exact mul_le_mul_of_nonneg_right hlo2 hp52.le
    by_contra hcon
    have : (m : ℚ) + 1 ≤ 4503599627370496 := by
      have : m + 1 ≤ 4503599627370496 := by omega
      exact_mod_cast this
    linarith [hnear.1]

/-- Correct rounding: when `round` does not overflow, the value it returns
differs from `± num / den` by at most half a unit in the last place at the
magnitude of `num / den`. -/
theorem round_near (neg : Bool) (num den : Nat) (hd : 0 < den)
    (hfin : (round neg num den).2 = false) :
    |toRat (round neg num den).1 - (if neg then -1 else 1) * ((num : ℚ) / den)|
      ≤ halfUlp num den := by
  have two : (2 : ℚ) ≠ 0 := by norm_num
  unfold halfUlp
  rcases Nat.eq_zero_or_pos num with h0 | hn
  · subst h0
    have hr : round neg 0 den = (finite neg 0 0, false) := by
      unfold round
      rw [if_pos (Or.inl rfl)]
    rw [hr]
    have hz : toRat (finite neg 0 0) = 0 := by
      simp [toRat, significand]
    rw [hz]
    simp only [Nat.cast_zero, zero_div, mul_zero, sub_zero, abs_zero]
    positivity
  obtain ⟨m, hround, hnear, hm53, hnorm⟩ := round_core neg num den hn hd
  have hE1 : -1022 ≤ max (floorLog2 num den) (-1022) := le_max_right _ _
  generalize max (floorLog2 num den) (-1022) = E at hround hnear hnorm hE1 ⊢
  rw [hround] at hfin ⊢
  have ht : (((E + 1022).toNat : Nat) : Int) = E + 1022 := Int.toNat_of_nonneg (by omega)
  rw [toRat_pack neg _ m hm53 hnorm hfin, ht]
  have hexp : E + 1022 - 1074 = E - 52 := by ring
  have hxy : (num : ℚ) / den
      = (num : ℚ) / den * (2 : ℚ) ^ (52 - E) * (2 : ℚ) ^ (E - 52) := by
    rw [mul_assoc, ← zpow_add₀ two]
    have : 52 - E + (E - 52) = 0 := by ring
    rw [this, zpow_zero, mul_one]
  generalize (num : ℚ) / den * (2 : ℚ) ^ (52 - E) = y at hnear hxy
  rw [hexp, hxy]
  have hhalf : (2 : ℚ) ^ (E - 53) = 1 / 2 * (2 : ℚ) ^ (E - 52) := by
    have : E - 52 = E - 53 + 1 := by ring
    rw [this, zpow_add_one₀ two]
    ring
  have hq : (0 : ℚ) < (2 : ℚ) ^ (E - 52) := by positivity
  have hfactor : (if neg then (-1 : ℚ) else 1) * (m : ℚ) * (2 : ℚ) ^ (E - 52)
      - (if neg then (-1 : ℚ) else 1) * (y * (2 : ℚ) ^ (E - 52))
      = (if neg then (-1 : ℚ) else 1) * (((m : ℚ) - y) * (2 : ℚ) ^ (E - 52)) := by ring
  rw [hfactor, hhalf, abs_mul, abs_mul, abs_of_pos hq]
  have hsgn : |(if neg then (-1 : ℚ) else 1)| = 1 := by cases neg <;> simp
  rw [hsgn, one_mul]
  exact mul_le_mul_of_nonneg_right hnear hq.le

/-- Overflow happens only from the midpoint between the largest finite
float64 and `2 ^ 1024` upwards: `2 ^ 1024 - 2 ^ 970 ≤ num / den`. -/
theorem round_overflow (neg : Bool) (num den : Nat) (hn : 0 < num) (hd : 0 < den)
    (hov : (round neg num den).2 = true) :
    (2 : ℚ) ^ (1024 : Int) - (2 : ℚ) ^ (970 : Int) ≤ (num : ℚ) / den := by
  have two : (2 : ℚ) ≠ 0 := by norm_num
  obtain ⟨hlo, -⟩ := floorLog2_spec num den hn hd
  obtain ⟨m, hround, hnear, hm53, hnorm⟩ := round_core neg num den hn hd
  have hE1 : -1022 ≤ max (floorLog2 num den) (-1022) := le_max_right _ _
  have hEq : -1022 < max (floorLog2 num den) (-1022) →
      max (floorLog2 num den) (-1022) = floorLog2 num den := by
    intro hgt
    rcases max_choice (floorLog2 num den) (-1022) with h | h
    · exact h
    · rw [h] at hgt; omega
  generalize max (floorLog2 num den) (-1022) = E at hround hnear hnorm hE1 hEq
  rw [hround] at hov
  have hk : ¬ ((E + 1022).toNat * 4503599627370496 + m) / 4503599627370496 < 2047 := by
    intro h
    unfold pack at hov
    rw [dif_pos h] at hov
    cases hov
  have ht : (((E + 1022).toNat : Nat) : Int) = E + 1022 := Int.toNat_of_nonneg (by omega)
  have hE1023 : 1023 ≤ E := by omega
  have hlo2 : (2 : ℚ) ^ E ≤ (num : ℚ) / den := by rw [hEq (by omega)]; exact hlo
  rcases lt_or_le 1023 E with hbig | hsmall
  · calc (2 : ℚ) ^ (1024 : Int) - (2 : ℚ) ^ (970 : Int) ≤ (2 : ℚ) ^ (1024 : Int) := by
          have : (0 : ℚ) < (2 : ℚ) ^ (970 : Int) := by positivity
          linarith
      _ ≤ (2 : ℚ) ^ E := zpow_le_zpow_right₀ (by norm_num) (by omega)
      _ ≤ (num : ℚ) / den := hlo2
  · have hE : E = 1023 := by omega
    subst hE
    have hm : m = 9007199254740992 := by omega
    subst hm
    rw [abs_le] at hnear
    have h1 : (9007199254740992 : ℚ) - 1 / 2 ≤ (num : ℚ) / den * (2 : ℚ) ^ (52 - 1023 : Int) := by
      have := hnear.1
      push_cast at this
      linarith
    have hq : (0 : ℚ) < (2 : ℚ) ^ (971 : Int) := by positivity
    have h2 := mul_le_mul_of_nonneg_right h1 hq.le
    have h3 : (num : ℚ) / den * (2 : ℚ) ^ (52 - 1023 : Int) * (2 : ℚ) ^ (971 : Int)
        = (num : ℚ) / den := by
      rw [mul_assoc, ← zpow_add₀ two]
      norm_num
    rw [h3] at h2
    have h4 : ((9007199254740992 : ℚ) - 1 / 2) * (2 : ℚ) ^ (971 : Int)
        = (2 : ℚ) ^ (1024 : Int) - (2 : ℚ) ^ (970 : Int) := by
      have e1 : (9007199254740992 : ℚ) = (2 : ℚ) ^ (53 : Int) := by norm_num
      have e2 : (2 : ℚ) ^ (1024 : Int) = (2 : ℚ) ^ (53 : Int) * (2 : ℚ) ^ (971 : Int) := by
        rw [← zpow_add₀ two]; norm_num
      have e3 : (2 : ℚ) ^ (971 : Int) = (2 : ℚ) ^ (970 : Int) * 2 := by
        rw [← zpow_add_one₀ two]; norm_num
      rw [e1, e2, e3]
      ring
    rw [h4] at h2
    exact h2

/-- The exponent `floorLog2` computes is the integer logarithm of the
quotient. -/
theorem floorLog2_eq_log (num den : Nat) (hn : 0 < num) (hd : 0 < den) :
    floorLog2 num den = Int.log 2 ((num : ℚ) / den) := by
  obtain ⟨hlo, hhi⟩ := floorLog2_spec num den hn hd
  have hx : (0 : ℚ) < (num : ℚ) / den := by positivity
  have h1 : floorLog2 num den ≤ Int.log 2 ((num : ℚ) / den) :=
    (Int.zpow_le_iff_le_log (by norm_num) hx).1 (by exact_mod_cast hlo)
  have h2 : Int.log 2 ((num : ℚ) / den) < floorLog2 num den + 1 :=
    (Int.lt_zpow_iff_log_lt (by norm_num) hx).1 (by exact_mod_cast hhi)
  omega

/-- Half a unit in the last place, in terms of the integer logarithm. -/
theorem halfUlp_eq_log (num den : Nat) (hn : 0 < num) (hd : 0 < den) :
    halfUlp num den = (2 : ℚ) ^ (max (Int.log 2 ((num : ℚ) / den)) (-1022) - 53) := by
  unfold halfUlp
  rw [floorLog2_eq_log num den hn hd]

/-- Accuracy of `roundScaled`: the result is an infinity (overflow) or lies
within half a unit in the last place of `± n * 2 ^ q`. -/
theorem roundScaled_near (neg : Bool) (n : Nat) (hn : 0 < n) (q : Int) :
    (roundScaled neg n q = inf neg) ∨
      |toRat (roundScaled neg n q) - (if neg then -1 else 1) * ((n : ℚ) * (2 : ℚ) ^ q)|
        ≤ (2 : ℚ) ^ (max (Int.log 2 ((n : ℚ) * (2 : ℚ) ^ q)) (-1022) - 53) := by
  unfold roundScaled
  by_cases hq : 0 ≤ q
  · obtain ⟨k, rfl⟩ := Int.eq_ofNat_of_zero_le hq
    simp only [hq, if_true, Int.toNat_ofNat]
    have hpos : 0 < n * 2 ^ k := Nat.mul_pos hn (by positivity)
    rcases round_shape neg (n * 2 ^ k) 1 with ⟨hfin, -⟩ | ⟨-, hinf⟩
    · right
      have h := round_near neg (n * 2 ^ k) 1 (by decide) hfin
      rw [halfUlp_eq_log _ _ hpos (by decide)] at h
      have hx : (((n * 2 ^ k : Nat) : ℚ) / ((1 : Nat) : ℚ)) = (n : ℚ) * (2 : ℚ) ^ (k : Int) := by
        rw [zpow_natCast]; push_cast; ring
      rw [hx] at h
      exact h
    · left; exact hinf
  · obtain ⟨k, hk⟩ : ∃ k : Nat, q = -(k : Int) := ⟨(-q).toNat, by omega⟩
    subst hk
    have hto : (- -(k : Int)).toNat = k := by omega
    simp only [hq, if_false, hto]
    have hpos : 0 < 2 ^ k := by positivity
    rcases round_shape neg n (2 ^ k) with ⟨hfin, -⟩ | ⟨-, hinf⟩
    · right
      have h := round_near neg n (2 ^ k) hpos hfin
      rw [halfUlp_eq_log _ _ hn hpos] at h
      have hx : ((n : ℚ) / ((2 ^ k : Nat) : ℚ)) = (n : ℚ) * (2 : ℚ) ^ (-(k : Int)) := by
        rw [zpow_neg, zpow_natCast]; push_cast; ring
      rw [hx] at h
      exact h
    · left; exact hinf

/-- The number a finite float64 denotes, as an integer multiple of `2 ^ q`
for any `q` not above its binary exponent. -/
theorem toRat_scaled (neg : Bool) (e : Fin 2047) (f : Fin 4503599627370496) (q : Int)
    (hq : q ≤ scale e) :
    toRat (finite neg e f) =
      (((if neg then -((significand e f : Int) * 2 ^ (scale e - q).toNat)
          else (significand e f : Int) * 2 ^ (scale e - q).toNat : Int)) : ℚ) * (2 : ℚ) ^ q := by
  have two : (2 : ℚ) ≠ 0 := by norm_num
  have hsplit : (2 : ℚ) ^ scale e = (2 : ℚ) ^ (scale e - q).toNat * (2 : ℚ) ^ q := by
    rw [← zpow_natCast, ← zpow_add₀ two]
    congr 1
    rw [Int.toNat_of_nonneg (by omega)]
    ring
  simp only [toRat]
  rw [hsplit]
  cases neg
  · rw [if_neg Bool.false_ne_true, if_neg Bool.false_ne_true]; push_cast; ring
  · rw [if_pos rfl, if_pos rfl]; push_cast; ring

/-- Accuracy of `add` on finite operands: the result is an infinity
(overflow) or lies within half a unit in the last place of the exact sum;
a zero sum is exact. -/
theorem add_near (na nb : Bool) (ea eb : Fin 2047) (fa fb : Fin 4503599627370496) :
    (∃ neg, add (finite na ea fa) (finite nb eb fb) = inf neg) ∨
      |toRat (add (finite na ea fa) (finite nb eb fb))
          - (toRat (finite na ea fa) + toRat (finite nb eb fb))|
        ≤ (2 : ℚ) ^ (max (Int.log 2 |toRat (finite na ea fa) + toRat (finite nb eb fb)|)
            (-1022) - 53) := by
  have hqa : min (scale ea) (scale eb) ≤ scale ea := min_le_left _ _
  have hqb : min (scale ea) (scale eb) ≤ scale eb := min_le_right _ _
  rw [toRat_scaled na ea fa _ hqa, toRat_scaled nb eb fb _ hqb]
  simp only [add]
  generalize min (scale ea) (scale eb) = q
  generalize hia : ((significand ea fa : Int) * 2 ^ (scale ea - q).toNat) = ia
  generalize hib : ((significand eb fb : Int) * 2 ^ (scale eb - q).toNat) = ib
  have hsum : (((if na then -ia else ia : Int) : ℚ)) * (2 : ℚ) ^ q
      + (((if nb then -ib else ib : Int) : ℚ)) * (2 : ℚ) ^ q
      = ((((if na then -ia else ia) + (if nb then -ib else ib) : Int)) : ℚ) * (2 : ℚ) ^ q := by
    push_cast; ring
  rw [hsum]
  generalize ((if na then -ia else ia) + (if nb then -ib else ib)) = total
  have hq2 : (0 : ℚ) < (2 : ℚ) ^ q := by positivity
  by_cases h0 : total = 0
  · right
    rw [if_pos h0, h0]
    have hz : toRat (finite (na && nb) 0 0) = 0 := by simp [toRat, significand]
    rw [hz]
    simp only [Int.cast_zero, zero_mul, sub_zero, abs_zero]
    positivity
  · rw [if_neg h0]
    have hnat : 0 < total.natAbs := Int.natAbs_pos.2 h0
    have habs : |((total : Int) : ℚ) * (2 : ℚ) ^ q| = (total.natAbs : ℚ) * (2 : ℚ) ^ q := by
      rw [abs_mul, abs_of_pos hq2, Nat.cast_natAbs, Int.cast_abs]
    have hsgn : (if decide (total < 0) = true then (-1 : ℚ) else 1)
        * ((total.natAbs : ℚ) * (2 : ℚ) ^ q) = ((total : Int) : ℚ) * (2 : ℚ) ^ q := by
      rw [Nat.cast_natAbs, Int.cast_abs]
      by_cases hneg : total < 0
      · have : ((total : Int) : ℚ) < 0 := by exact_mod_cast hneg
        simp only [hneg, decide_True, if_true, abs_of_neg this]
        ring
      · have : (0 : ℚ) ≤ ((total : Int) : ℚ) := by exact_mod_cast (not_lt.1 hneg)
        simp only [hneg, decide_False, Bool.false_eq_true, if_false, abs_of_nonneg this]
        ring
    rcases roundScaled_near (decide (total < 0)) total.natAbs hnat q with hinf | hnear
    · left; exact ⟨_, hinf⟩
    · right
      rw [hsgn] at hnear
      rw [habs]
      exact hnear

theorem round_zero (neg : Bool) (den : Nat) : round neg 0 den = (finite neg 0 0, false) := by
  unfold round
  rw [if_pos (Or.inl rfl)]

theorem toRat_zero (neg : Bool) : toRat (finite neg 0 0) = 0 := by
  simp [toRat, significand]

/-- Accuracy of `div` on finite operands with a non-zero divisor: the result
is an infinity (overflow) or lies within half a unit in the last place of
the exact quotient. -/
theorem div_near (na nb : Bool) (ea eb : Fin 2047) (fa fb : Fin 4503599627370496)
    (hb : toRat (finite nb eb fb) ≠ 0) :
    (∃ neg, div (finite na ea fa) (finite nb eb fb) = inf neg) ∨
      |toRat (div (finite na ea fa) (finite nb eb fb))
          - toRat (finite na ea fa) / toRat (finite nb eb fb)|
        ≤ (2 : ℚ) ^ (max (Int.log 2 |toRat (finite na ea fa) / toRat (finite nb eb fb)|)
            (-1022) - 53) := by
  have two : (2 : ℚ) ≠ 0 := by norm_num
  have hsb : significand eb fb ≠ 0 := by
    intro h0
    apply hb
    simp [toRat, h0]
  have hsbq : (0 : ℚ) < (significand eb fb : ℚ) := by
    exact_mod_cast Nat.pos_of_ne_zero hsb
  simp only [div]
  rw [if_neg hsb]
  by_cases hsa : significand ea fa = 0
  · right
    have hta : toRat (finite na ea fa) = 0 := by simp [toRat, hsa]
    rw [hta, zero_div, abs_zero]
    have hres : toRat (if 0 ≤ scale ea - scale eb
        then (round (xor na nb) (significand ea fa * 2 ^ (scale ea - scale eb).toNat)
          (significand eb fb)).1
        else (round (xor na nb) (significand ea fa)
          (significand eb fb * 2 ^ (-(scale ea - scale eb)).toNat)).1) = 0 := by
      rw [hsa]
      split_ifs
      · rw [Nat.zero_mul, round_zero]; exact toRat_zero _
      · rw [round_zero]; exact toRat_zero _
    rw [hres]
    simp only [sub_zero, abs_zero]
    positivity
  · have hsaq : (0 : ℚ) < (significand ea fa : ℚ) := by
      exact_mod_cast Nat.pos_of_ne_zero hsa
    -- the exact quotient
    have hquot : toRat (finite na ea fa) / toRat (finite nb eb fb)
        = (if xor na nb then (-1 : ℚ) else 1)
          * ((significand ea fa : ℚ) / (significand eb fb : ℚ)
              * (2 : ℚ) ^ (scale ea - scale eb)) := by
      simp only [toRat]
      rw [zpow_sub₀ two]
      have h2 : (2 : ℚ) ^ scale eb ≠ 0 := by positivity
      cases na <;> cases nb <;> simp <;> field_simp
    have hr : (0 : ℚ) < (significand ea fa : ℚ) / (significand eb fb : ℚ)
        * (2 : ℚ) ^ (scale ea - scale eb) := by positivity
    have habs : |toRat (finite na ea fa) / toRat (finite nb eb fb)|
        = (significand ea fa : ℚ) / (significand eb fb : ℚ)
          * (2 : ℚ) ^ (scale ea - scale eb) := by
      rw [hquot, abs_mul, abs_of_pos hr]
      cases na <;> cases nb <;> simp
    rw [habs, hquot]
    generalize scale ea - scale eb = q at hr ⊢
    by_cases hq : 0 ≤ q
    · obtain ⟨k, rfl⟩ := Int.eq_ofNat_of_zero_le hq
      simp only [hq, if_true, Int.toNat_ofNat]
      have hnum : 0 < significand ea fa * 2 ^ k :=
        Nat.mul_pos (Nat.pos_of_ne_zero hsa) (by positivity)
      have hden : 0 < significand eb fb := Nat.pos_of_ne_zero hsb
      rcases round_shape (xor na nb) (significand ea fa * 2 ^ k) (significand eb fb) with
        ⟨hfin, -⟩ | ⟨-, hinf⟩
      · right
        have h := round_near (xor na nb) _ _ hden hfin
        rw [halfUlp_eq_log _ _ hnum hden] at h
        have hx : (((significand ea fa * 2 ^ k : Nat) : ℚ) / (significand eb fb : ℚ))
            = (significand ea fa : ℚ) / (significand eb fb : ℚ) * (2 : ℚ) ^ (k : Int) := by
          rw [zpow_natCast]; push_cast; ring
        rw [hx] at h
        exact h
      · left; exact ⟨_, hinf⟩
    · obtain ⟨k, hk⟩ : ∃ k : Nat, q = -(k : Int) := ⟨(-q).toNat, by omega⟩
      subst hk
      have hto : (- -(k : Int)).toNat = k := by omega
      simp only [hq, if_false, hto]
      have hnum : 0 < significand ea fa := Nat.pos_of_ne_zero hsa
      have hden : 0 < significand eb fb * 2 ^ k :=
        Nat.mul_pos (Nat.pos_of_ne_zero hsb) (by positivity)
      rcases round_shape (xor na nb) (significand ea fa) (significand eb fb * 2 ^ k) with
        ⟨hfin, -⟩ | ⟨-, hinf⟩
      · right
        have h := round_near (xor na nb) _ _ hden hfin
        rw [halfUlp_eq_log _ _ hnum hden] at h
        have hx : ((significand ea fa : ℚ) / ((significand eb fb * 2 ^ k : Nat) : ℚ))
            = (significand ea fa : ℚ) / (significand eb fb : ℚ) * (2 : ℚ) ^ (-(k : Int)) := by
          rw [zpow_neg, zpow_natCast]; push_cast; field_simp
        rw [hx] at h
        exact h
      · left; exact ⟨_, hinf⟩

/-- The conversion of a 64-bit int to float64 is within half a unit in the
last place of the integer (and exact for `0`). -/
theorem ofInt_near (n : Int) (hrange : n.natAbs ≤ 9223372036854775808) :
    |toRat (ofInt n) - (n : ℚ)| ≤ (2 : ℚ) ^ (max (Int.log 2 |(n : ℚ)|) (-1022) - 53) := by
  unfold ofInt
  by_cases h0 : n = 0
  · subst h0
    simp only [Int.natAbs_zero, round_zero, toRat_zero, Int.cast_zero, sub_zero, abs_zero]
    positivity
  · have hnat : 0 < n.natAbs := Int.natAbs_pos.2 h0
    have hsgn : (if decide (n < 0) = true then (-1 : ℚ) else 1)
        * ((n.natAbs : ℚ) / ((1 : Nat) : ℚ)) = (n : ℚ) := by
      rw [Nat.cast_natAbs, Int.cast_abs]
      by_cases hneg : n < 0
      · have : ((n : Int) : ℚ) < 0 := by exact_mod_cast hneg
        simp only [hneg, decide_True, if_true, abs_of_neg this]
        simp
      · have : (0 : ℚ) ≤ ((n : Int) : ℚ) := by exact_mod_cast (not_lt.1 hneg)
        simp only [hneg, decide_False, Bool.false_eq_true, if_false, abs_of_nonneg this]
        simp
    have habs : ((n.natAbs : ℚ) / ((1 : Nat) : ℚ)) = |(n : ℚ)| := by
      rw [Nat.cast_natAbs, Int.cast_abs]; simp
    rcases round_shape (decide (n < 0)) n.natAbs 1 with ⟨hfin, -⟩ | ⟨hov, -⟩
    · have h := round_near (decide (n < 0)) n.natAbs 1 (by decide) hfin
      rw [halfUlp_eq_log _ _ hnat (by decide), hsgn, habs] at h
      exact h
    · exfalso
      have h := round_overflow (decide (n < 0)) n.natAbs 1 hnat (by decide) hov
      have hle : ((n.natAbs : Nat) : ℚ) ≤ 9223372036854775808 := by exact_mod_cast hrange
      have hbig : (9223372036854775808 : ℚ) < (2 : ℚ) ^ (1024 : Int) - (2 : ℚ) ^ (970 : Int) := by
        have e1 : (2 : ℚ) ^ (1024 : Int) = (2 : ℚ) ^ (970 : Int) * (2 : ℚ) ^ (54 : Int) := by
          rw [← zpow_add₀ (by norm_num : (2 : ℚ) ≠ 0)]; norm_num
        have e2 : (1 : ℚ) ≤ (2 : ℚ) ^ (970 : Int) - 0 := by
          have : (2 : ℚ) ^ (0 : Int) ≤ (2 : ℚ) ^ (970 : Int) :=
            zpow_le_zpow_right₀ (by norm_num) (by norm_num)
          simpa using this
        have e3 : (2 : ℚ) ^ (54 : Int) = 18014398509481984 := by norm_num
        rw [e1, e3]
        nlinarith
      simp only [Nat.cast_one, div_one] at h
      linarith

/-- The value `round` returns when it does not overflow: `± m * 2 ^ (E - 52)`
with `E` the binary exponent of `num / den`, not below `-1022`, and `m` the
integer nearest to `num / den * 2 ^ (52 - E)`. -/
theorem round_value (neg : Bool) (num den : Nat) (hn : 0 < num) (hd : 0 < den)
    (hfin : (round neg num den).2 = false) :
    ∃ m : Nat,
      toRat (round neg num den).1 =
        (if neg then -1 else 1) * (m : ℚ)
          * (2 : ℚ) ^ (max (floorLog2 num den) (-1022) - 52) ∧
      |(m : ℚ) - (num : ℚ) / den * (2 : ℚ) ^ (52 - max (floorLog2 num den) (-1022))|
        ≤ 1 / 2 := by
  obtain ⟨m, hround, hnear, hm53, hnorm⟩ := round_core neg num den hn hd
  have hE1 : -1022 ≤ max (floorLog2 num den) (-1022) := le_max_right _ _
  refine ⟨m, ?_, hnear⟩
  generalize max (floorLog2 num den) (-1022) = E at hround hnorm hE1 ⊢
  rw [hround] at hfin ⊢
  have ht : (((E + 1022).toNat : Nat) : Int) = E + 1022 := Int.toNat_of_nonneg (by omega)
  rw [toRat_pack neg _ m hm53 hnorm hfin, ht]
  have hexp : E + 1022 - 1074 = E - 52 := by ring
  rw [hexp]

/-- Rounding is exact on the float64 grid: when `num / den * 2 ^ (52 - E)` is
an integer, `round` returns `± num / den`. -/
theorem round_exact (neg : Bool) (num den : Nat) (hn : 0 < num) (hd : 0 < den)
    (hfin : (round neg num den).2 = false) (z : Nat)
    (hz : (num : ℚ) / den * (2 : ℚ) ^ (52 - max (floorLog2 num den) (-1022)) = (z : ℚ)) :
    toRat (round neg num den).1 = (if neg then -1 else 1) * ((num : ℚ) / den) := by
  have two : (2 : ℚ) ≠ 0 := by norm_num
  obtain ⟨m, hval, hnear⟩ := round_value neg num den hn hd hfin
  rw [hz] at hnear
  have hmz : m = z := by
    rw [abs_le] at hnear
    have h1 : (z : ℚ) < (m : ℚ) + 1 := by linarith [hnear.1]
    have h2 : (m : ℚ) < (z : ℚ) + 1 := by linarith [hnear.2]
    have h1' : z < m + 1 := by exact_mod_cast h1
    have h2' : m < z + 1 := by exact_mod_cast h2
    omega
  rw [hval, hmz, ← hz]
  generalize max (floorLog2 num den) (-1022) = E
  rw [mul_assoc, mul_assoc ((num : ℚ) / den), ← zpow_add₀ two]
  have : 52 - E + (E - 52) = 0 := by ring
  rw [this, zpow_zero, mul_one]

/-- Relative accuracy of `round` for a quotient on the grid of multiples of
`2 ^ (-1074)`: without overflow the error is at most `2 ^ (-53)` times the
quotient (in the subnormal range the result is exact). -/
theorem round_rel_of_grid (neg : Bool) (num den : Nat) (hn : 0 < num) (hd : 0 < den)
    (hfin : (round neg num den).2 = false) (z : Nat)
    (hz : (num : ℚ) / den * (2 : ℚ) ^ (1074 : Int) = (z : ℚ)) :
    |toRat (round neg num den).1 - (if neg then -1 else 1) * ((num : ℚ) / den)|
      ≤ (2 : ℚ) ^ (-53 : Int) * ((num : ℚ) / den) := by
  have two : (2 : ℚ) ≠ 0 := by norm_num
  have hx : (0 : ℚ) < (num : ℚ) / den := by positivity
  by_cases hnorm : -1022 ≤ floorLog2 num den
  · have h := round_near neg num den hd hfin
    unfold halfUlp at h
    rw [max_eq_left hnorm] at h
    refine le_trans h ?_
    obtain ⟨hlo, -⟩ := floorLog2_spec num den hn hd
    have : (2 : ℚ) ^ (floorLog2 num den - 53)
        = (2 : ℚ) ^ (-53 : Int) * (2 : ℚ) ^ floorLog2 num den := by
      rw [← zpow_add₀ two]; congr 1; ring
    rw [this]
    exact mul_le_mul_of_nonneg_left hlo (by positivity)
  · have hmax : max (floorLog2 num den) (-1022) = -1022 := max_eq_right (by omega)
    have hexact := round_exact neg num den hn hd hfin z (by rw [hmax]; exact hz)
    rw [hexact, sub_self, abs_zero]
    positivity



/-- Relative accuracy of `roundScaled` for `q ≥ -1074`: the result is the
infinity of the sign (overflow) or a finite value within `2 ^ (-53)` times
`n * 2 ^ q` of `± n * 2 ^ q`. -/
theorem roundScaled_rel (neg : Bool) (n : Nat) (hn : 0 < n) (q : Int) (hq : -1074 ≤ q) :
    (roundScaled neg n q = inf neg) ∨
      ((roundScaled neg n q).isFinite = true ∧
        |toRat (roundScaled neg n q) - (if neg then -1 else 1) * ((n : ℚ) * (2 : ℚ) ^ q)|
          ≤ (2 : ℚ) ^ (-53 : Int) * ((n : ℚ) * (2 : ℚ) ^ q)) := by
  have two : (2 : ℚ) ≠ 0 := by norm_num
  have hgrid : (n : ℚ) * (2 : ℚ) ^ q * (2 : ℚ) ^ (1074 : Int)
      = ((n * 2 ^ (q + 1074).toNat : Nat) : ℚ) := by
    rw [mul_assoc, ← zpow_add₀ two]
    have : q + 1074 = (((q + 1074).toNat : Nat) : Int) := (Int.toNat_of_nonneg (by omega)).symm
    rw [this, zpow_natCast]
    push_cast
    rw [Int.toNat_ofNat]
  unfold roundScaled
  by_cases h0 : 0 ≤ q
  · obtain ⟨k, rfl⟩ := Int.eq_ofNat_of_zero_le h0
    simp only [h0, if_true, Int.toNat_ofNat]
    have hpos : 0 < n * 2 ^ k := Nat.mul_pos hn (by positivity)
    have hx : (((n * 2 ^ k : Nat) : ℚ) / ((1 : Nat) : ℚ)) = (n : ℚ) * (2 : ℚ) ^ (k : Int) := by
      rw [zpow_natCast]; push_cast; ring
    rcases round_shape neg (n * 2 ^ k) 1 with ⟨hfin, e, f, hval⟩ | ⟨-, hinf⟩
    · right
      refine ⟨by rw [hval]; rfl, ?_⟩
      have h := round_rel_of_grid neg (n * 2 ^ k) 1 hpos (by decide) hfin _
        (by rw [hx]; exact hgrid)
      rw [hx] at h
      exact h
    · left; exact hinf
  · obtain ⟨k, hk⟩ : ∃ k : Nat, q = -(k : Int) := ⟨(-q).toNat, by omega⟩
    subst hk
    have hto : (- -(k : Int)).toNat = k := by omega
    simp only [h0, if_false, hto]
    have hpos : 0 < 2 ^ k := by positivity
    have hx : ((n : ℚ) / ((2 ^ k : Nat) : ℚ)) = (n : ℚ) * (2 : ℚ) ^ (-(k : Int)) := by
      rw [zpow_neg, zpow_natCast]; push_cast; ring
    rcases round_shape neg n (2 ^ k) with ⟨hfin, e, f, hval⟩ | ⟨-, hinf⟩
    · right
      refine ⟨by rw [hval]; rfl, ?_⟩
      have h := round_rel_of_grid neg n (2 ^ k) hn hpos hfin _ (by rw [hx]; exact hgrid)
      rw [hx] at h
      exact h
    · left; exact hinf

theorem scale_ge (e : Fin 2047) : -1074 ≤ scale e := by
  unfold scale
  split_ifs <;> omega

/-- Accuracy of `add` on finite operands: the result is an infinity
(overflow), or it is finite and within `2 ^ (-53)` times the exact sum of
it. -/
theorem add_rel (na nb : Bool) (ea eb : Fin 2047) (fa fb : Fin 4503599627370496) :
    (∃ neg, add (finite na ea fa) (finite nb eb fb) = inf neg) ∨
      ((add (finite na ea fa) (finite nb eb fb)).isFinite = true ∧
        |toRat (add (finite na ea fa) (finite nb eb fb))
            - (toRat (finite na ea fa) + toRat (finite nb eb fb))|
          ≤ (2 : ℚ) ^ (-53 : Int) * |toRat (finite na ea fa) + toRat (finite nb eb fb)|) := by
  have hqa : min (scale ea) (scale eb) ≤ scale ea := min_le_left _ _
  have hqb : min (scale ea) (scale eb) ≤ scale eb := min_le_right _ _
  have hq74 : -1074 ≤ min (scale ea) (scale eb) := le_min (scale_ge ea) (scale_ge eb)
  rw [toRat_scaled na ea fa _ hqa, toRat_scaled nb eb fb _ hqb]
  simp only [add]
  generalize min (scale ea) (scale eb) = q at hq74
  generalize ((significand ea fa : Int) * 2 ^ (scale ea - q).toNat) = ia
  generalize ((significand eb fb : Int) * 2 ^ (scale eb - q).toNat) = ib
  have hsum : (((if na then -ia else ia : Int) : ℚ)) * (2 : ℚ) ^ q
      + (((if nb then -ib else ib : Int) : ℚ)) * (2 : ℚ) ^ q
      = ((((if na then -ia else ia) + (if nb then -ib else ib) : Int)) : ℚ) * (2 : ℚ) ^ q := by
    push_cast; ring
  rw [hsum]
  generalize ((if na then -ia else ia) + (if nb then -ib else ib)) = total
  have hq2 : (0 : ℚ) < (2 : ℚ) ^ q := by positivity
  by_cases h0 : total = 0
  · right
    rw [if_pos h0, h0]
    refine ⟨rfl, ?_⟩
    have hz : toRat (finite (na && nb) 0 0) = 0 := toRat_zero _
    rw [hz]
    simp
  · rw [if_neg h0]
    have hnat : 0 < total.natAbs := Int.natAbs_pos.2 h0
    have habs : |((total : Int) : ℚ) * (2 : ℚ) ^ q| = (total.natAbs : ℚ) * (2 : ℚ) ^ q := by
      rw [abs_mul, abs_of_pos hq2, Nat.cast_natAbs, Int.cast_abs]
    have hsgn : (if decide (total < 0) = true then (-1 : ℚ) else 1)
        * ((total.natAbs : ℚ) * (2 : ℚ) ^ q) = ((total : Int) : ℚ) * (2 : ℚ) ^ q := by
      rw [Nat.cast_natAbs, Int.cast_abs]
      by_cases hneg : total < 0
      · have : ((total : Int) : ℚ) < 0 := by exact_mod_cast hneg
        simp only [hneg, decide_True, if_true, abs_of_neg this]
        ring
      · have : (0 : ℚ) ≤ ((total : Int) : ℚ) := by exact_mod_cast (not_lt.1 hneg)
        simp only [hneg, decide_False, Bool.false_eq_true, if_false, abs_of_nonneg this]
        ring
    rcases roundScaled_rel (decide (total < 0)) total.natAbs hnat q hq74 with hinf | ⟨hf, hnear⟩
    · left; exact ⟨_, hinf⟩
    · right
      rw [hsgn] at hnear
      rw [habs]
      exact ⟨hf, hnear⟩

/-- A sum is finite only if its first operand is. -/
theorem isFinite_of_add (a b : Float64) (h : (add a b).isFinite = true) :
    a.isFinite = true := by
  cases a with
  | nan => simp [add, isFinite] at h
  | inf na =>
    cases b with
    | nan => simp [add, isFinite] at h
    | inf nb =>
      simp only [add] at h
      split_ifs at h <;> simp [isFinite] at h
    | finite nb eb fb => simp [add, isFinite] at h
  | finite na ea fa => rfl

theorem isFinite_of_foldl_add (l : List Float64) :
    ∀ acc : Float64, (l.foldl add acc).isFinite = true → acc.isFinite = true := by
  induction l with
  | nil => intro acc h; exact h
  | cons x xs ih =>
    intro acc h
    exact isFinite_of_add acc x (ih (add acc x) h)

/-- A sum is finite only if its second operand is. -/
theorem isFinite_of_add_right (a b : Float64) (h : (add a b).isFinite = true) :
    b.isFinite = true := by
  cases b with
  | nan => cases a <;> simp [add, isFinite] at h
  | inf nb =>
    cases a with
    | nan => simp [add, isFinite] at h
    | inf na =>
      simp only [add] at h
      split_ifs at h <;> simp [isFinite] at h
    | finite na ea fa => simp [add, isFinite] at h
  | finite nb eb fb => rfl

/-- A running sum is finite only if every term is. -/
theorem isFinite_of_foldl_add_mem (l : List Float64) :
    ∀ acc : Float64, (l.foldl add acc).isFinite = true → ∀ x ∈ l, x.isFinite = true := by
  induction l with
  | nil => intro acc _ x hx; cases hx
  | cons y ys ih =>
    intro acc h x hx
    rcases List.mem_cons.1 hx with rfl | hmem
    · exact isFinite_of_add_right acc x (isFinite_of_foldl_add ys (add acc x) h)
    · exact ih (add acc y) h x hmem

/-- A finite sum is within `2 ^ (-53)` times the exact sum of it. -/
theorem add_rel_of_isFinite (a b : Float64) (h : (add a b).isFinite = true) :
    |toRat (add a b) - (toRat a + toRat b)| ≤ (2 : ℚ) ^ (-53 : Int) * |toRat a + toRat b| := by
  have ha := isFinite_of_add a b h
  have hb := isFinite_of_add_right a b h
  cases a with
  | nan => cases ha
  | inf _ => cases ha
  | finite na ea fa =>
    cases b with
    | nan => cases hb
    | inf _ => cases hb
    | finite nb eb fb =>
      rcases add_rel na nb ea eb fa fb with ⟨neg, hinf⟩ | ⟨-, hnear⟩
      · rw [hinf] at h; cases h
      · exact hnear

/-- Accuracy of the left-to-right float64 sum: when the running sum stays
finite, it differs from the exact sum of the accumulator and the terms by at
most `((1 + 2 ^ (-53)) ^ n - 1)` times the sum of their magnitudes, `n` being
the number of terms. -/
theorem foldl_add_near (l : List Float64) :
    ∀ acc : Float64, (l.foldl add acc).isFinite = true →
      |toRat (l.foldl add acc) - (toRat acc + (l.map toRat).sum)|
        ≤ ((1 + (2 : ℚ) ^ (-53 : Int)) ^ l.length - 1)
            * (|toRat acc| + (l.map (fun x => |toRat x|)).sum) := by
  induction l with
  | nil => intro acc _; simp
  | cons x xs ih =>
    intro acc h
    have hstep : (add acc x).isFinite = true := isFinite_of_foldl_add xs (add acc x) h
    have h1 := add_rel_of_isFinite acc x hstep
    have h2 := ih (add acc x) h
    simp only [List.foldl_cons, List.map_cons, List.sum_cons, List.length_cons]
    have hu : (0 : ℚ) ≤ (2 : ℚ) ^ (-53 : Int) := by positivity
    have hS : (0 : ℚ) ≤ (xs.map (fun x => |toRat x|)).sum :=
      List.sum_nonneg (by
        intro y hy
        obtain ⟨z, -, rfl⟩ := List.mem_map.1 hy
        exact abs_nonneg _)
    generalize (2 : ℚ) ^ (-53 : Int) = u at h1 h2 hu ⊢
    generalize (xs.map (fun x => |toRat x|)).sum = S at h2 hS ⊢
    generalize (xs.map toRat).sum = T at h2 ⊢
    generalize toRat (List.foldl add (add acc x) xs) = R at h2 ⊢
    generalize toRat (add acc x) = s at h1 h2 ⊢
    generalize toRat acc = a at h1 ⊢
    generalize toRat x = t at h1 ⊢
    have hP : (1 : ℚ) ≤ (1 + u) ^ xs.length := one_le_pow₀ (by linarith)
    rw [pow_succ]
    generalize (1 + u) ^ xs.length = P at h2 hP ⊢
    have hW : |a + t| ≤ |a| + |t| := abs_add a t
    have hs : |s| ≤ (1 + u) * (|a| + |t|) := by
      have e : s = (s - (a + t)) + (a + t) := by ring
      have h3 : |s| ≤ |s - (a + t)| + |a + t| := by
        conv_lhs => rw [e]
        exact abs_add _ _
      have h4 : u * |a + t| ≤ u * (|a| + |t|) := mul_le_mul_of_nonneg_left hW hu
      linarith
    have e1 : |R - (a + (t + T))| ≤ |R - (s + T)| + |s - (a + t)| := by
      have e : R - (a + (t + T)) = (R - (s + T)) + (s - (a + t)) := by ring
      rw [e]
      exact abs_add _ _
    have e2 : (P - 1) * (|s| + S) ≤ (P - 1) * ((1 + u) * (|a| + |t|) + S) :=
      mul_le_mul_of_nonneg_left (by linarith) (by linarith)
    have e3 : u * |a + t| ≤ u * (|a| + |t|) := mul_le_mul_of_nonneg_left hW hu
    have e4 : 0 ≤ P * u * S := mul_nonneg (mul_nonneg (by linarith) hu) hS
    have e5 : (P - 1) * ((1 + u) * (|a| + |t|) + S) + u * (|a| + |t|) + P * u * S
        = (P * (1 + u) - 1) * (|a| + (|t| + S)) := by ring
    linarith

/-- Accuracy of `round` in relative form: a result that is not an overflow
is within `2 ^ (-53)` times `num / den`, plus `2 ^ (-1075)` (half the spacing
of the subnormal numbers), of `± num / den`. -/
theorem round_rel (neg : Bool) (num den : Nat) (hd : 0 < den)
    (hfin : (round neg num den).2 = false) :
    |toRat (round neg num den).1 - (if neg then -1 else 1) * ((num : ℚ) / den)|
      ≤ (2 : ℚ) ^ (-53 : Int) * ((num : ℚ) / den) + (2 : ℚ) ^ (-1075 : Int) := by
  have two : (2 : ℚ) ≠ 0 := by norm_num
  have hx0 : (0 : ℚ) ≤ (num : ℚ) / den := by positivity
  rcases Nat.eq_zero_or_pos num with h0 | hn
  · subst h0
    rw [round_zero, toRat_zero]
    simp only [Nat.cast_zero, zero_div, mul_zero, sub_zero, abs_zero, zero_add]
    positivity
  · have h := round_near neg num den hd hfin
    refine le_trans h ?_
    unfold halfUlp
    obtain ⟨hlo, -⟩ := floorLog2_spec num den hn hd
    rcases le_or_lt (floorLog2 num den) (-1022) with hle | hgt
    · rw [max_eq_right hle]
      have : (0 : ℚ) ≤ (2 : ℚ) ^ (-53 : Int) * ((num : ℚ) / den) := by positivity
      have e : (-1022 - 53 : Int) = -1075 := by norm_num
      rw [e]
      linarith
    · rw [max_eq_left hgt.le, sub_eq_add_neg, zpow_add₀ two, mul_comm]
      have h53 : (0 : ℚ) ≤ (2 : ℚ) ^ (-53 : Int) := by positivity
      have h75 : (0 : ℚ) ≤ (2 : ℚ) ^ (-1075 : Int) := by positivity
      have := mul_le_mul_of_nonneg_left hlo h53
      linarith



/-- Every float64 value denotes a number below `2 ^ 1024 - 2 ^ 970` in
magnitude. -/
theorem abs_toRat_lt (x : Float64) :
    |toRat x| < (2 : ℚ) ^ (1024 : Int) - (2 : ℚ) ^ (970 : Int) := by
  have two : (2 : ℚ) ≠ 0 := by norm_num
  have e1 : (2 : ℚ) ^ (1024 : Int) = (2 : ℚ) ^ (970 : Int) * (2 : ℚ) ^ (54 : Int) := by
    rw [← zpow_add₀ two]; norm_num
  have e2 : (2 : ℚ) ^ (971 : Int) = (2 : ℚ) ^ (970 : Int) * 2 := by
    rw [← zpow_add_one₀ two]; norm_num
  have hc : (0 : ℚ) < (2 : ℚ) ^ (970 : Int) := by positivity
  have e54 : (2 : ℚ) ^ (54 : Int) = 18014398509481984 := by norm_num
  have hbig : (0 : ℚ) < (2 : ℚ) ^ (1024 : Int) - (2 : ℚ) ^ (970 : Int) := by
    rw [e1, e54]; linarith
  cases x with
  | nan => simp only [toRat, abs_zero]; exact hbig
  | inf _ => simp only [toRat, abs_zero]; exact hbig
  | finite neg e f =>
    have habs : |toRat (finite neg e f)| = (significand e f : ℚ) * (2 : ℚ) ^ scale e := by
      simp only [toRat]
      rw [abs_mul, abs_mul, abs_of_pos (by positivity : (0 : ℚ) < (2 : ℚ) ^ scale e),
        abs_of_nonneg (by positivity : (0 : ℚ) ≤ (significand e f : ℚ))]
      cases neg <;> simp
    rw [habs]
    have hsig : significand e f ≤ 9007199254740991 := by
      unfold significand
      have := f.isLt
      split_ifs <;> omega
    have hsc : scale e ≤ 971 := by
      unfold scale
      have := e.isLt
      split_ifs <;> omega
    have hsigq : (significand e f : ℚ) ≤ 9007199254740991 := by exact_mod_cast hsig
    have hpow : (2 : ℚ) ^ scale e ≤ (2 : ℚ) ^ (971 : Int) :=
      zpow_le_zpow_right₀ (by norm_num) hsc
    have hp0 : (0 : ℚ) ≤ (2 : ℚ) ^ scale e := by positivity
    calc (significand e f : ℚ) * (2 : ℚ) ^ scale e
        ≤ 9007199254740991 * (2 : ℚ) ^ scale e := mul_le_mul_of_nonneg_right hsigq hp0
      _ ≤ 9007199254740991 * (2 : ℚ) ^ (971 : Int) :=
          mul_le_mul_of_nonneg_left hpow (by norm_num)
      _ < (2 : ℚ) ^ (1024 : Int) - (2 : ℚ) ^ (970 : Int) := by
          rw [e1, e2, e54]; linarith

/-- The quotient of two finite values, the divisor not zero, is the rounding
of a fraction of naturals equal to the exact quotient in magnitude. -/
theorem div_form (na nb : Bool) (ea eb : Fin 2047) (fa fb : Fin 4503599627370496)
    (hsb : significand eb fb ≠ 0) :
    ∃ num den : Nat, 0 < den ∧
      div (finite na ea fa) (finite nb eb fb) = (round (xor na nb) num den).1 ∧
      toRat (finite na ea fa) / toRat (finite nb eb fb)
        = (if xor na nb then -1 else 1) * ((num : ℚ) / den) := by
  have two : (2 : ℚ) ≠ 0 := by norm_num
  have hsbq : (0 : ℚ) < (significand eb fb : ℚ) := by
    exact_mod_cast Nat.pos_of_ne_zero hsb
  have hquot : toRat (finite na ea fa) / toRat (finite nb eb fb)
      = (if xor na nb then (-1 : ℚ) else 1)
        * ((significand ea fa : ℚ) / (significand eb fb : ℚ)
            * (2 : ℚ) ^ (scale ea - scale eb)) := by
    simp only [toRat]
    rw [zpow_sub₀ two]
    have h2 : (2 : ℚ) ^ scale eb ≠ 0 := by positivity
    cases na <;> cases nb <;> simp <;> field_simp
  simp only [div]
  rw [if_neg hsb, hquot]
  generalize scale ea - scale eb = q
  by_cases hq : 0 ≤ q
  · obtain ⟨k, rfl⟩ := Int.eq_ofNat_of_zero_le hq
    simp only [hq, if_true, Int.toNat_ofNat]
    refine ⟨significand ea fa * 2 ^ k, significand eb fb, Nat.pos_of_ne_zero hsb, rfl, ?_⟩
    congr 1
    rw [zpow_natCast]; push_cast; ring
  · obtain ⟨k, hk⟩ : ∃ k : Nat, q = -(k : Int) := ⟨(-q).toNat, by omega⟩
    subst hk
    have hto : (- -(k : Int)).toNat = k := by omega
    simp only [hq, if_false, hto]
    refine ⟨significand ea fa, significand eb fb * 2 ^ k,
      Nat.mul_pos (Nat.pos_of_ne_zero hsb) (by positivity), rfl, ?_⟩
    congr 1
    rw [zpow_neg, zpow_natCast]; push_cast; field_simp

/-- Accuracy of `div` on finite operands whose exact quotient is below
`2 ^ 1024 - 2 ^ 970` in magnitude: the result is finite and within
`2 ^ (-53)` times the quotient, plus `2 ^ (-1075)`, of it. -/
theorem div_rel (a b : Float64) (ha : a.isFinite = true) (hb : b.isFinite = true)
    (hb0 : toRat b ≠ 0)
    (hlt : |toRat a / toRat b| < (2 : ℚ) ^ (1024 : Int) - (2 : ℚ) ^ (970 : Int)) :
    (div a b).isFinite = true ∧
      |toRat (div a b) - toRat a / toRat b|
        ≤ (2 : ℚ) ^ (-53 : Int) * |toRat a / toRat b| + (2 : ℚ) ^ (-1075 : Int) := by
  cases a with
  | nan => cases ha
  | inf _ => cases ha
  | finite na ea fa =>
    cases b with
    | nan => cases hb
    | inf _ => cases hb
    | finite nb eb fb =>
      have hsb : significand eb fb ≠ 0 := by
        intro h0
        apply hb0
        simp [toRat, h0]
      obtain ⟨num, den, hden, hdiv, hq⟩ := div_form na nb ea eb fa fb hsb
      have hx0 : (0 : ℚ) ≤ (num : ℚ) / den := by positivity
      have habs : |toRat (finite na ea fa) / toRat (finite nb eb fb)| = (num : ℚ) / den := by
        rw [hq, abs_mul, abs_of_nonneg hx0]
        cases xor na nb <;> simp
      rw [habs] at hlt ⊢
      rw [hdiv, hq]
      rcases round_shape (xor na nb) num den with ⟨hfin, e, f, hval⟩ | ⟨hov, -⟩
      · exact ⟨by rw [hval]; rfl, round_rel _ num den hden hfin⟩
      · exfalso
        rcases Nat.eq_zero_or_pos num with h0 | hn
        · subst h0
          rw [round_zero] at hov
          cases hov
        · exact absurd (round_overflow _ num den hn hden hov) (not_le.2 hlt)

/-- The conversion of a positive int below `2 ^ 53` to float64 is exact. -/
theorem ofInt_exact (n : Nat) (h0 : 0 < n) (hn : n < 9007199254740992) :
    (ofInt (n : Int)).isFinite = true ∧ toRat (ofInt (n : Int)) = (n : ℚ) := by
  have two : (2 : ℚ) ≠ 0 := by norm_num
  have hneg : decide ((n : Int) < 0) = false := by
    simp
  have hnq : (n : ℚ) < 9007199254740992 := by exact_mod_cast hn
  have h1q : (1 : ℚ) ≤ (n : ℚ) := by exact_mod_cast h0
  unfold ofInt
  rw [hneg, Int.natAbs_ofNat]
  have hfin : (round false n 1).2 = false := by
    rcases round_shape false n 1 with ⟨hfin, -⟩ | ⟨hov, -⟩
    · exact hfin
    · exfalso
      have h := round_overflow false n 1 h0 (by decide) hov
      have e1 : (2 : ℚ) ^ (1024 : Int) = (2 : ℚ) ^ (970 : Int) * (2 : ℚ) ^ (54 : Int) := by
        rw [← zpow_add₀ two]; norm_num
      have e54 : (2 : ℚ) ^ (54 : Int) = 18014398509481984 := by norm_num
      have hc : (1 : ℚ) ≤ (2 : ℚ) ^ (970 : Int) := one_le_zpow₀ (by norm_num) (by norm_num)
      rw [e1, e54] at h
      simp only [Nat.cast_one, div_one] at h
      linarith
  obtain ⟨hlo, hhi⟩ := floorLog2_spec n 1 h0 (by decide)
  simp only [Nat.cast_one, div_one] at hlo hhi
  have hE0 : 0 ≤ floorLog2 n 1 := by
    by_contra hlt
    have : (2 : ℚ) ^ (floorLog2 n 1 + 1) ≤ (2 : ℚ) ^ (0 : Int) :=
      zpow_le_zpow_right₀ (by norm_num) (by omega)
    rw [zpow_zero] at this
    linarith
  have hE52 : floorLog2 n 1 ≤ 52 := by
    by_contra hgt
    have : (2 : ℚ) ^ (53 : Int) ≤ (2 : ℚ) ^ floorLog2 n 1 :=
      zpow_le_zpow_right₀ (by norm_num) (by omega)
    have e53 : (2 : ℚ) ^ (53 : Int) = 9007199254740992 := by norm_num
    rw [e53] at this
    linarith
  have hmax : max (floorLog2 n 1) (-1022) = floorLog2 n 1 := max_eq_left (by omega)
  obtain ⟨k, hk⟩ : ∃ k : Nat, 52 - floorLog2 n 1 = (k : Int) :=
    ⟨(52 - floorLog2 n 1).toNat, by omega⟩
  have hz : ((n : ℚ) / ((1 : Nat) : ℚ)) * (2 : ℚ) ^ (52 - max (floorLog2 n 1) (-1022))
      = ((n * 2 ^ k : Nat) : ℚ) := by
    rw [hmax, hk, zpow_natCast]
    push_cast
    ring
  have hex := round_exact false n 1 h0 (by decide) hfin _ hz
  rcases round_shape false n 1 with ⟨-, e, f, hval⟩ | ⟨hov, -⟩
  · refine ⟨by rw [hval]; rfl, ?_⟩
    rw [hex]
    simp
  · rw [hfin] at hov; cases hov

end Float64

/-! ## Lemmas on the loop of analyzeRates -/

theorem foldl_analyzeStep_maxRate (l : List CurrencyRate) (acc : Analysis) :
    (l.foldl analyzeStep acc).maxRate = l.foldl (selectStep Float64.gt) acc.maxRate := by
  induction l generalizing acc with
  | nil => rfl
  | cons x xs ih => simp only [List.foldl_cons, ih]; rfl

theorem foldl_analyzeStep_minRate (l : List CurrencyRate) (acc : Analysis) :
    (l.foldl analyzeStep acc).minRate = l.foldl (selectStep Float64.lt) acc.minRate := by
  induction l generalizing acc with
  | nil => rfl
  | cons x xs ih => simp only [List.foldl_cons, ih]; rfl

theorem foldl_analyzeStep_sum (l : List CurrencyRate) (acc : Analysis) :
    (l.foldl analyzeStep acc).sum
      = (l.map CurrencyRate.UnitRate).foldl Float64.add acc.sum := by
  induction l generalizing acc with
  | nil => rfl
  | cons x xs ih => simp only [List.foldl_cons, List.map_cons, ih]; rfl

theorem foldl_analyzeStep_count (l : List CurrencyRate) (acc : Analysis) :
    (l.foldl analyzeStep acc).count = acc.count + l.length := by
  induction l generalizing acc with
  | nil => simp
  | cons x xs ih =>
    simp only [List.foldl_cons, ih, List.length_cons, analyzeStep]
    push_cast
    ring

/-- The selection loop, for an order `k` on non-NaN values such that
`better r m` holds exactly when both are non-NaN and `k m < k r`: started
from a non-NaN `m0`, the result is non-NaN, dominates `m0` and every
non-NaN element, and is either `m0` or the first element of the list that
reaches the final value. -/
theorem foldl_selectStep_spec (better : Float64 → Float64 → Bool) (k : Float64 → Int)
    (hb : ∀ r m, better r m = true ↔ r.isNaN = false ∧ m.isNaN = false ∧ k m < k r)
    (l : List CurrencyRate) :
    ∀ m0 : CurrencyRate, m0.UnitRate.isNaN = false →
      (l.foldl (selectStep better) m0).UnitRate.isNaN = false ∧
      k m0.UnitRate ≤ k (l.foldl (selectStep better) m0).UnitRate ∧
      (∀ r ∈ l, r.UnitRate.isNaN = false →
        k r.UnitRate ≤ k (l.foldl (selectStep better) m0).UnitRate) ∧
      (l.foldl (selectStep better) m0 = m0 ∨
        ∃ i : Nat, l[i]? = some (l.foldl (selectStep better) m0) ∧
          k m0.UnitRate < k (l.foldl (selectStep better) m0).UnitRate ∧
          ∀ (j : Nat) (r : CurrencyRate), j < i → l[j]? = some r →
            r.UnitRate.isNaN = true ∨
              k r.UnitRate < k (l.foldl (selectStep better) m0).UnitRate) := by
  induction l with
  | nil => intro m0 h0; simp [h0]
  | cons x xs ih =>
    intro m0 h0
    simp only [List.foldl_cons]
    by_cases hx : better x.UnitRate m0.UnitRate = true
    · have hstep : selectStep better m0 x = x := by simp [selectStep, hx]
      obtain ⟨hxn, -, hlt⟩ := (hb _ _).1 hx
      obtain ⟨h1, h2, h3, h4⟩ := ih x hxn
      rw [hstep]
      refine ⟨h1, by omega, ?_, ?_⟩
      · intro r hr hrn
        rcases List.mem_cons.1 hr with rfl | hr
        · exact h2
        · exact h3 r hr hrn
      · right
        rcases h4 with h4 | ⟨i, hi, hki, hj⟩
        · refine ⟨0, by simp [h4], by rw [h4]; exact hlt, ?_⟩
          intro j r hj; omega
        · refine ⟨i + 1, by simpa using hi, by omega, ?_⟩
          intro j r hji hjr
          cases j with
          | zero =>
            simp only [List.getElem?_cons_zero, Option.some.injEq] at hjr
            subst hjr; right; exact hki
          | succ j => exact hj j r (by omega) (by simpa using hjr)
    · have hstep : selectStep better m0 x = m0 := by simp [selectStep, hx]
      have hxle : x.UnitRate.isNaN = false → k x.UnitRate ≤ k m0.UnitRate := by
        intro hxn
        by_contra hcon
        exact hx ((hb _ _).2 ⟨hxn, h0, by omega⟩)
      obtain ⟨h1, h2, h3, h4⟩ := ih m0 h0
      rw [hstep]
      refine ⟨h1, h2, ?_, ?_⟩
      · intro r hr hrn
        rcases List.mem_cons.1 hr with rfl | hr
        · have := hxle hrn; omega
        · exact h3 r hr hrn
      · rcases h4 with h4 | ⟨i, hi, hki, hj⟩
        · left; exact h4
        · right
          refine ⟨i + 1, by simpa using hi, hki, ?_⟩
          intro j r hji hjr
          cases j with
          | zero =>
            simp only [List.getElem?_cons_zero, Option.some.injEq] at hjr
            rw [← hjr]
            by_cases hrn : x.UnitRate.isNaN = true
            · left; exact hrn
            · right
              have := hxle (by simpa using hrn)
              omega
          | succ j => exact hj j r (by omega) (by simpa using hjr)

theorem gt_better (r m : Float64) :
    Float64.gt r m = true ↔ r.isNaN = false ∧ m.isNaN = false ∧ m.key < r.key := by
  rw [Float64.gt, Float64.lt_eq_true_iff]; tauto

theorem lt_better (r m : Float64) :
    Float64.lt r m = true ↔ r.isNaN = false ∧ m.isNaN = false ∧ -m.key < -r.key := by
  rw [Float64.lt_eq_true_iff]
  constructor
  · rintro ⟨h1, h2, h3⟩; exact ⟨h1, h2, by omega⟩
  · rintro ⟨h1, h2, h3⟩; exact ⟨h1, h2, by omega⟩

/-- Unfolding of `analyzeRates` on a non-empty slice. -/
theorem analyzeRates_cons (first : CurrencyRate) (rest : List CurrencyRate) :
    analyzeRates (first :: rest) =
      some ((first :: rest).foldl (selectStep Float64.gt) first,
        (first :: rest).foldl (selectStep Float64.lt) first,
        Float64.div (((first :: rest).map CurrencyRate.UnitRate).foldl Float64.add Float64.zero)
          (Float64.ofInt ((first :: rest).length : Int))) := by
  have hcount : 0 < (0 : Int) + (((first :: rest).length : Nat) : Int) := by
    simp only [List.length_cons]; push_cast; omega
  simp only [analyzeRates, List.length_cons, Nat.add_one_ne_zero, if_false,
    List.getElem?_cons_zero, foldl_analyzeStep_maxRate, foldl_analyzeStep_minRate,
    foldl_analyzeStep_sum, foldl_analyzeStep_count]
  simp only [List.length_cons] at hcount
  rw [if_pos hcount]
  simp

/-- The magnitude of a sum is at most the sum of the magnitudes. -/
theorem abs_sum_le (l : List ℚ) : |l.sum| ≤ (l.map (fun x => |x|)).sum := by
  induction l with
  | nil => simp
  | cons x xs ih =>
    simp only [List.sum_cons, List.map_cons]
    exact le_trans (abs_add _ _) (by linarith)

/-- Accuracy of the average of `analyzeRates`. -/
theorem avg_near (l : List Float64) (hne : l ≠ []) (hlen : l.length < 9007199254740992)
    (hfin : (l.foldl Float64.add Float64.zero).isFinite = true) :
    (Float64.div (l.foldl Float64.add Float64.zero) (Float64.ofInt (l.length : Int))).isFinite
        = true ∧
      |Float64.toRat (Float64.div (l.foldl Float64.add Float64.zero)
            (Float64.ofInt (l.length : Int)))
          - (l.map Float64.toRat).sum / (l.length : ℚ)|
        ≤ ((1 + (2 : ℚ) ^ (-53 : Int)) ^ (l.length + 1) - 1)
            * ((l.map (fun x => |Float64.toRat x|)).sum / (l.length : ℚ))
          + (2 : ℚ) ^ (-1075 : Int) := by
  have hpos : 0 < l.length := List.length_pos.2 hne
  obtain ⟨hbfin, hbval⟩ := Float64.ofInt_exact l.length hpos hlen
  have hnq : (1 : ℚ) ≤ (l.length : ℚ) := by exact_mod_cast hpos
  have hn0 : (0 : ℚ) < (l.length : ℚ) := by linarith
  have hsum := Float64.foldl_add_near l Float64.zero hfin
  have hz : Float64.toRat Float64.zero = 0 := Float64.toRat_zero false
  rw [hz, abs_zero, zero_add, zero_add] at hsum
  have hmag := Float64.abs_toRat_lt (l.foldl Float64.add Float64.zero)
  have hquot : |Float64.toRat (l.foldl Float64.add Float64.zero)
      / Float64.toRat (Float64.ofInt (l.length : Int))|
      ≤ |Float64.toRat (l.foldl Float64.add Float64.zero)| := by
    rw [hbval, abs_div, abs_of_pos hn0]
    exact div_le_self (abs_nonneg _) hnq
  obtain ⟨hdfin, hdiv⟩ := Float64.div_rel (l.foldl Float64.add Float64.zero)
    (Float64.ofInt (l.length : Int)) hfin hbfin (by rw [hbval]; linarith)
    (lt_of_le_of_lt hquot hmag)
  refine ⟨hdfin, ?_⟩
  rw [hbval] at hdiv
  have hS := abs_sum_le (l.map Float64.toRat)
  rw [List.map_map] at hS
  have hSeq : (l.map ((fun x => |x|) ∘ Float64.toRat)) = l.map (fun x => |Float64.toRat x|) := rfl
  rw [hSeq] at hS
  have hu : (0 : ℚ) ≤ (2 : ℚ) ^ (-53 : Int) := by positivity
  rw [pow_succ]
  generalize (2 : ℚ) ^ (-53 : Int) = u at hsum hdiv hu ⊢
  generalize (2 : ℚ) ^ (-1075 : Int) = c at hdiv ⊢
  have hP : (1 : ℚ) ≤ (1 + u) ^ l.length := one_le_pow₀ (by linarith)
  generalize (1 + u) ^ l.length = P at hsum hP ⊢
  generalize Float64.toRat (Float64.div (l.foldl Float64.add Float64.zero)
    (Float64.ofInt (l.length : Int))) = A at hdiv ⊢
  generalize Float64.toRat (l.foldl Float64.add Float64.zero) = s at hsum hdiv ⊢
  generalize (l.map Float64.toRat).sum = T at hsum hS ⊢
  generalize (l.map (fun x => |Float64.toRat x|)).sum = S at hsum hS ⊢
  generalize (l.length : ℚ) = n at hnq hn0 hdiv ⊢
  have hS0 : 0 ≤ S := le_trans (abs_nonneg _) hS
  -- |s| ≤ P * S
  have hs : |s| ≤ P * S := by
    have e : s = (s - T) + T := by ring
    have h3 : |s| ≤ |s - T| + |T| := by
      conv_lhs => rw [e]
      exact abs_add _ _
    linarith
  have h1 : |s / n - T / n| ≤ (P - 1) * S / n := by
    rw [← sub_div, abs_div, abs_of_pos hn0]
    exact div_le_div_of_nonneg_right hsum hn0.le
  have h2 : u * |s / n| ≤ u * (P * S) / n := by
    rw [abs_div, abs_of_pos hn0, ← mul_div_assoc]
    exact div_le_div_of_nonneg_right (mul_le_mul_of_nonneg_left hs hu) hn0.le
  have h3 : |A - T / n| ≤ |A - s / n| + |s / n - T / n| := by
    have e : A - T / n = (A - s / n) + (s / n - T / n) := by ring
    rw [e]
    exact abs_add _ _
  have e5 : (P * (1 + u) - 1) * (S / n) = (P - 1) * S / n + u * (P * S) / n := by ring
  rw [e5]
  linarith

/-! ## Lemmas on the collection loop -/

theorem appendRates_eq (allRates : List CurrencyRate) (valCurs : ValCurs) :
    appendRates allRates valCurs = allRates ++ valCurs.Rate.map (convert valCurs.Date) := by
  unfold appendRates
  generalize valCurs.Rate = entries
  induction entries generalizing allRates with
  | nil => simp
  | cons e es ih => simp [List.foldl_cons, ih]

/-- While every remaining day is fetched and decoded, the loop requests the
days `i, i + 1, ...` before the anchor in turn and appends their
observations. -/
theorem collectLoop_all_ok (fetch : Time → FetchOutcome) (start : Time) (docs : Nat → ValCurs)
    (n : Nat) : ∀ (i : Nat) (requested : List Time) (allRates : List CurrencyRate),
      (∀ k : Nat, i ≤ k → k < i + n → fetch (start.addDays (-(k : Int))) = .document (docs k)) →
      collectLoop fetch start n (i : Int) requested allRates =
        ⟨requested ++ (List.range' i n).map (fun k : Nat => start.addDays (-(k : Int))),
          allRates ++ ((List.range' i n).map (fun k : Nat => (docs k).Rate.map (convert (docs k).Date))).flatten, none⟩ := by
  induction n with
  | zero => intro i requested allRates _; simp [collectLoop]
  | succ n ih =>
    intro i requested allRates h
    have hi := h i (le_refl i) (by omega)
    have hrest := ih (i + 1) (requested ++ [start.addDays (-(i : Int))])
      (appendRates allRates (docs i)) (fun k hk1 hk2 => h k (by omega) (by omega))
    simp only [collectLoop, hi]
    have hcast : ((i : Int) + 1) = ((i + 1 : Nat) : Int) := by push_cast; rfl
    rw [hcast, hrest, appendRates_eq]
    simp [List.range'_succ]

/-- When the days before day `i + n` are fetched and decoded and day
`i + n` is not, the loop stops there. -/
theorem collectLoop_fail (fetch : Time → FetchOutcome) (start : Time)
    (n : Nat) : ∀ (i m : Nat) (requested : List Time) (allRates : List CurrencyRate),
      (∀ k : Nat, i ≤ k → k < i + n → ∃ v, fetch (start.addDays (-(k : Int))) = .document v) →
      (∀ v, fetch (start.addDays (-((i + n : Nat) : Int))) ≠ .document v) →
      (collectLoop fetch start (n + 1 + m) (i : Int) requested allRates).rates = [] ∧
      (collectLoop fetch start (n + 1 + m) (i : Int) requested allRates).requested =
        requested ++ (List.range' i n).map (fun k : Nat => start.addDays (-(k : Int))) ++
          (if fetch (start.addDays (-((i + n : Nat) : Int))) = .requestError then []
            else [start.addDays (-((i + n : Nat) : Int))]) ∧
      (collectLoop fetch start (n + 1 + m) (i : Int) requested allRates).err =
        (match fetch (start.addDays (-((i + n : Nat) : Int))) with
          | .requestError => some (.request (start.addDays (-((i + n : Nat) : Int))))
          | .transportError => some (.transport (start.addDays (-((i + n : Nat) : Int))))
          | .badStatus code => some (.status (start.addDays (-((i + n : Nat) : Int))) code)
          | .decodeError => some (.decode (start.addDays (-((i + n : Nat) : Int))))
          | .document _ => none) := by
  induction n with
  | zero =>
    intro i m requested allRates _ hfail
    have hrw : 0 + 1 + m = m + 1 := by omega
    simp only [hrw, collectLoop, Nat.add_zero] at hfail ⊢
    cases hf : fetch (start.addDays (-(i : Int))) with
    | document v => exact absurd hf (hfail v)
    | requestError => simp
    | transportError => simp
    | badStatus code => simp
    | decodeError => simp
  | succ n ih =>
    intro i m requested allRates hok hfail
    obtain ⟨v, hv⟩ := hok i (le_refl i) (by omega)
    have hrw : n + 1 + 1 + m = (n + 1 + m) + 1 := by omega
    have hidx : i + 1 + n = i + (n + 1) := by omega
    have hcast : ((i : Int) + 1) = ((i + 1 : Nat) : Int) := by push_cast; rfl
    have hrest := ih (i + 1) m (requested ++ [start.addDays (-(i : Int))])
      (appendRates allRates v) (fun k hk1 hk2 => hok k (by omega) (by omega))
      (by rw [hidx]; exact hfail)
    rw [hidx] at hrest
    simp only [hrw, collectLoop, hv, hcast]
    refine ⟨hrest.1, ?_, hrest.2.2⟩
    rw [hrest.2.1]
    simp [List.range'_succ]

/-! ## Lemmas on the parsing functions -/

theorem isDigit_range {c : Char} (h : isDigit c = true) : 48 ≤ c.toNat ∧ c.toNat ≤ 57 := by
  simpa [isDigit] using h

theorem isDigit_ne {c d : Char} (h : isDigit c = true) (hd : isDigit d = false) : c ≠ d := by
  intro hcd; rw [hcd, hd] at h; exact absurd h (by decide)

theorem lower_of_isDigit {c : Char} (h : isDigit c = true) : lower c = c.toNat := by
  obtain ⟨h1, h2⟩ := isDigit_range h
  unfold lower
  generalize c.toNat = n at h1 h2
  interval_cases n <;> rfl

theorem plainChar_lower {c : Char} (h : plainChar c) : 46 ≤ lower c ∧ lower c ≤ 57 := by
  rcases h with h | h
  · rw [lower_of_isDigit h]; have := isDigit_range h; omega
  · subst h; decide

theorem plainChar_ne {c d : Char} (h : plainChar c) (hd : isDigit d = false) (hp : d ≠ '.') :
    c ≠ d := by
  rcases h with h | h
  · exact isDigit_ne h hd
  · subst h; exact fun h => hp h.symm

theorem special_plain (s : List Char) (hs : ∀ c ∈ s, plainChar c) : special s = none := by
  cases s with
  | nil => rfl
  | cons c cs =>
    have hc := hs c (List.mem_cons_self _ _)
    have h1 : c ≠ '+' := plainChar_ne hc (by decide) (by decide)
    have h2 : c ≠ '-' := plainChar_ne hc (by decide) (by decide)
    have h3 : c ≠ 'i' := plainChar_ne hc (by decide) (by decide)
    have h4 : c ≠ 'I' := plainChar_ne hc (by decide) (by decide)
    have h5 : c ≠ 'n' := plainChar_ne hc (by decide) (by decide)
    have h6 : c ≠ 'N' := plainChar_ne hc (by decide) (by decide)
    simp [special, h1, h2, h3, h4, h5, h6]

theorem underscoreLoop_plain (l : List Char) (hl : ∀ c ∈ l, plainChar c) :
    ∀ saw : Char, saw ≠ '_' → underscoreLoop false l saw = true := by
  induction l with
  | nil => intro saw hsaw; simp [underscoreLoop, hsaw]
  | cons c cs ih =>
    intro saw hsaw
    have hcs : ∀ d ∈ cs, plainChar d := fun d hd => hl d (List.mem_cons_of_mem _ hd)
    rcases hl c (List.mem_cons_self _ _) with hc | hc
    · simp [underscoreLoop, hc, ih hcs '0' (by decide)]
    · subst hc
      have hnd : isDigit '.' = false := by decide
      simp [underscoreLoop, hnd, hsaw, ih hcs '!' (by decide)]

theorem underscoreOK_plain (s : List Char) (hs : ∀ c ∈ s, plainChar c) :
    underscoreOK s = true := by
  have hbody : (if s.head? = some '-' ∨ s.head? = some '+' then s.tail else s) = s := by
    cases s with
    | nil => simp
    | cons c cs =>
      have hc := hs c (List.mem_cons_self _ _)
      have h1 : c ≠ '+' := plainChar_ne hc (by decide) (by decide)
      have h2 : c ≠ '-' := plainChar_ne hc (by decide) (by decide)
      simp [h1, h2]
  unfold underscoreOK
  simp only [hbody]
  match s, hs with
  | [], _ => rfl
  | [c], hs => exact underscoreLoop_plain _ hs _ (by decide)
  | c0 :: c1 :: rest, hs =>
    have hc1 := plainChar_lower (hs c1 (by simp))
    have hn : ¬(c0 = '0' ∧ (lower c1 = 98 ∨ lower c1 = 111 ∨ lower c1 = 120)) := by
      rintro ⟨-, h | h | h⟩ <;> omega
    simp only [hn, if_false]
    exact underscoreLoop_plain _ hs _ (by decide)

theorem scanMantissa_digits (ds : List Char) (hds : ∀ c ∈ ds, isDigit c = true)
    (rest : List Char) : ∀ st : Mantissa,
      scanMantissa false (ds ++ rest) st =
        scanMantissa false rest
          { mant := ds.foldl (fun n c => n * 10 + digitVal c) st.mant
            sawdot := st.sawdot
            sawdigits := st.sawdigits || !ds.isEmpty
            fracDigits := if st.sawdot then st.fracDigits + ds.length else st.fracDigits } := by
  induction ds with
  | nil => intro st; cases st; simp
  | cons c cs ih =>
    intro st
    have hc := hds c (List.mem_cons_self _ _)
    have h1 : c ≠ '_' := isDigit_ne hc (by decide)
    have h2 : c ≠ '.' := isDigit_ne hc (by decide)
    rw [List.cons_append, scanMantissa]
    simp only [h1, h2, if_false, hc, if_true]
    rw [ih (fun d hd => hds d (List.mem_cons_of_mem _ hd))]
    congr 1
    cases hsd : st.sawdot <;>
      simp [Mantissa.push, hsd, Nat.add_assoc, Nat.add_comm 1]

theorem foldl_digits_append (ip fp : List Char) (n : Nat) :
    fp.foldl (fun n c => n * 10 + digitVal c) (ip.foldl (fun n c => n * 10 + digitVal c) n)
      = (ip ++ fp).foldl (fun n c => n * 10 + digitVal c) n := by
  rw [List.foldl_append]

theorem hexPrefixed_plain (s : List Char) (hs : ∀ c ∈ s, plainChar c) :
    hexPrefixed s = false := by
  match s, hs with
  | [], _ => rfl
  | [_], _ => rfl
  | [_, _], _ => rfl
  | c0 :: c1 :: _ :: _, hp =>
    have := plainChar_lower (hp c1 (by simp))
    have hne : lower c1 ≠ 120 := by omega
    simp [hexPrefixed, hne]

/-- Result of `readFloat` on a string of digits and points whose mantissa scan
consumes everything and meets a digit. -/
theorem readFloat_plain (s : List Char) (hs : ∀ c ∈ s, plainChar c) (m : Mantissa)
    (hscan : scanMantissa false s ⟨0, false, false, 0⟩ = (m, []))
    (hsd : m.sawdigits = true) (hne : s ≠ []) :
    readFloat s = some ⟨false, false, m, 0⟩ := by
  have hu := underscoreOK_plain s hs
  have hh := hexPrefixed_plain s hs
  cases s with
  | nil => exact absurd rfl hne
  | cons c cs =>
    have hc := hs c (List.mem_cons_self _ _)
    have h1 : c ≠ '+' := plainChar_ne hc (by decide) (by decide)
    have h2 : c ≠ '-' := plainChar_ne hc (by decide) (by decide)
    unfold readFloat
    simp only [h1, h2, or_self, if_false, hh, Bool.false_eq_true, hscan, hsd, Bool.not_true,
      decide_False]
    simp [scanExponent, hu]

/-- Result of `ParseFloat` on an unsigned decimal numeral with a point: the float64
nearest to the number the numeral denotes, with a range error exactly when
that number is beyond the float64 range. -/
theorem ParseFloat_decimal (ip fp : List Char) (hip : ∀ c ∈ ip, isDigit c = true)
    (hfp : ∀ c ∈ fp, isDigit c = true) (hne : ip ++ fp ≠ []) :
    ParseFloat ⟨ip ++ '.' :: fp⟩ =
      ((Float64.round false (decimalValue (ip ++ fp)) (10 ^ fp.length)).1,
        if (Float64.round false (decimalValue (ip ++ fp)) (10 ^ fp.length)).2
          then some .outOfRange else none) := by
  have hplain : ∀ c ∈ ip ++ '.' :: fp, plainChar c := by
    intro c hc
    rcases List.mem_append.1 hc with h | h
    · exact Or.inl (hip c h)
    · rcases List.mem_cons.1 h with h | h
      · exact Or.inr h
      · exact Or.inl (hfp c h)
  have hscan : scanMantissa false (ip ++ '.' :: fp) ⟨0, false, false, 0⟩ =
      (⟨decimalValue (ip ++ fp), true, true, fp.length⟩, []) := by
    rw [scanMantissa_digits ip hip]
    have hdot : ('.' : Char) ≠ '_' := by decide
    simp only [scanMantissa, hdot, if_false, if_true, Bool.false_eq_true]
    have := scanMantissa_digits fp hfp []
      ⟨ip.foldl (fun n c => n * 10 + digitVal c) 0, true, false || !ip.isEmpty, 0⟩
    rw [List.append_nil] at this
    rw [this]
    simp only [scanMantissa, foldl_digits_append, decimalValue, if_true, Nat.zero_add]
    have hsd : ((false || !ip.isEmpty) || !fp.isEmpty) = true := by
      cases ip with
      | cons a as => rfl
      | nil =>
        cases fp with
        | cons b bs => rfl
        | nil => exact absurd rfl hne
    rw [hsd]
  have hread := readFloat_plain _ hplain _ hscan rfl (by simp)
  unfold ParseFloat
  simp only [special_plain _ hplain, hread, Literal.toFloat64, Bool.false_eq_true, if_false]
  by_cases hlen : fp.length = 0
  · simp [hlen]
  · have hneg : ¬ (0 : Int) ≤ 0 - (fp.length : Int) := by omega
    have hto : (-(0 - (fp.length : Int))).toNat = fp.length := by omega
    simp only [hneg, if_false, hto]

theorem replaceAll_comma (ip fp : List Char) (hip : ∀ c ∈ ip, isDigit c = true)
    (hfp : ∀ c ∈ fp, isDigit c = true) :
    replaceAll ⟨ip ++ ',' :: fp⟩ ',' '.' = ⟨ip ++ '.' :: fp⟩ := by
  have hmap : ∀ l : List Char, (∀ c ∈ l, isDigit c = true) →
      l.map (fun c => if c = ',' then '.' else c) = l := by
    intro l hl
    induction l with
    | nil => rfl
    | cons c cs ih =>
      have hc : c ≠ ',' := isDigit_ne (hl c (List.mem_cons_self _ _)) (by decide)
      simp [hc, ih (fun d hd => hl d (List.mem_cons_of_mem _ hd))]
  simp [replaceAll, hmap ip hip, hmap fp hfp]

theorem digitVal_pos {c : Char} (hc : isDigit c = true) (h0 : c ≠ '0') : 1 ≤ digitVal c := by
  obtain ⟨h1, h2⟩ := isDigit_range hc
  have hne : c.toNat ≠ 48 := by
    intro h48
    apply h0
    have := Char.ofNat_toNat c
    rw [h48] at this
    exact this.symm
  unfold digitVal
  omega

theorem parseUintLoop_digits (l : List Char) (hl : ∀ c ∈ l, isDigit c = true) :
    ∀ n : Nat, parseUintLoop l n = .overflow ∨
      ∃ m, parseUintLoop l n = .value m ∧ n ≤ m ∧ ((∃ c ∈ l, c ≠ '0') → 1 ≤ m) := by
  induction l with
  | nil =>
    intro n
    exact Or.inr ⟨n, rfl, le_refl n, fun ⟨c, hc, _⟩ => absurd hc (List.not_mem_nil c)⟩
  | cons c cs ih =>
    intro n
    have hc := hl c (List.mem_cons_self _ _)
    unfold parseUintLoop
    simp only [hc, Bool.not_true, Bool.false_eq_true, if_false]
    by_cases h1 : 18446744073709551615 / 10 + 1 ≤ n
    · simp [h1]
    · by_cases h2 : 18446744073709551615 < n * 10 + digitVal c
      · simp [h1, h2]
      · simp only [h1, h2, if_false]
        rcases ih (fun d hd => hl d (List.mem_cons_of_mem _ hd)) (n * 10 + digitVal c) with
          h | ⟨m, hm, hle, hpos⟩
        · exact Or.inl h
        · refine Or.inr ⟨m, hm, by omega, ?_⟩
          rintro ⟨d, hd, hd0⟩
          rcases List.mem_cons.1 hd with rfl | hd
          · have := digitVal_pos hc hd0
            omega
          · exact hpos ⟨d, hd, hd0⟩

/-- The four forms of the result of `Atoi`. -/
theorem Atoi_cases (s : String) :
    Atoi s = (0, some .invalid) ∨ Atoi s = (9223372036854775807, some .outOfRange) ∨
      Atoi s = (-9223372036854775808, some .outOfRange) ∨ ∃ n, Atoi s = (n, none) := by
  unfold Atoi
  by_cases h1 : s.data = []
  · left; simp [h1]
  · simp only [h1, if_false]
    generalize (if s.data.head? = some '+' ∨ s.data.head? = some '-' then s.data.tail
      else s.data) = body
    generalize decide (s.data.head? = some '-') = neg
    by_cases h2 : body = []
    · left; simp [h2]
    · simp only [h2, if_false]
      cases hp : parseUintLoop body 0 with
      | invalid => left; rfl
      | overflow =>
        cases neg
        · right; left; rfl
        · right; right; left; rfl
      | value un =>
        simp only
        by_cases h3 : (!neg && decide (9223372036854775808 ≤ un)) = true
        · right; left; simp only [h3, if_true]
        · by_cases h4 : (neg && decide (9223372036854775808 < un)) = true
          · right; right; left; simp [h3, h4]
          · right; right; right
            exact ⟨_, by rw [if_neg h3, if_neg h4]⟩

theorem Atoi_invalid (s : String) (h : (Atoi s).2 = some .invalid) : (Atoi s).1 = 0 := by
  rcases Atoi_cases s with h1 | h1 | h1 | ⟨n, h1⟩ <;> rw [h1] at h ⊢ <;> simp at h ⊢

theorem Atoi_outOfRange (s : String) (h : (Atoi s).2 = some .outOfRange) :
    (Atoi s).1 = 9223372036854775807 ∨ (Atoi s).1 = -9223372036854775808 := by
  rcases Atoi_cases s with h1 | h1 | h1 | ⟨n, h1⟩ <;> rw [h1] at h ⊢ <;> simp at h ⊢

/-- On a string of decimal digits with a non-zero digit `Atoi` returns at
least 1 (the largest int when the numeral is out of range). -/
theorem Atoi_pos (s : String) (hs : ∀ c ∈ s.data, isDigit c = true)
    (hnz : ∃ c ∈ s.data, c ≠ '0') : 1 ≤ (Atoi s).1 := by
  have hne : s.data ≠ [] := by
    obtain ⟨c0, hc0, -⟩ := hnz
    exact List.ne_nil_of_mem hc0
  have hhead : s.data.head? ≠ some '+' ∧ s.data.head? ≠ some '-' := by
    cases hd : s.data with
    | nil => simp
    | cons c cs =>
      have hc : isDigit c = true := hs c (by rw [hd]; exact List.mem_cons_self _ _)
      have h1 : c ≠ '+' := isDigit_ne hc (by decide)
      have h2 : c ≠ '-' := isDigit_ne hc (by decide)
      simp [h1, h2]
  unfold Atoi
  simp only [hne, if_false, hhead.1, hhead.2, or_self, decide_False]
  rcases parseUintLoop_digits s.data hs 0 with h | ⟨m, hm, -, hpos⟩
  · simp [h]
  · have hm1 : 1 ≤ m := hpos hnz
    simp only [hm]
    by_cases hbig : 9223372036854775808 ≤ m
    · simp [hbig]
    · simp only [Bool.not_false, Bool.true_and, hbig, decide_False, Bool.false_eq_true,
        if_false, Bool.false_and]
      omega

theorem special_sign (s : List Char) (f : Float64) (n : Nat) (h : special s = some (f, n)) :
    f = .inf (decide (s.head? = some '-')) ∨
      (f = .nan ∧ (s.head? = some 'n' ∨ s.head? = some 'N')) := by
  cases s with
  | nil => simp [special] at h
  | cons c cs =>
    simp only [special] at h
    simp only [List.head?_cons, Option.some.injEq]
    by_cases h1 : c = '+' ∨ c = '-'
    · rw [if_pos h1] at h
      cases hi : infinityLen cs with
      | none => rw [hi] at h; simp at h
      | some k =>
        rw [hi] at h
        simp only [Option.map_some', Option.some.injEq, Prod.mk.injEq] at h
        exact Or.inl h.1.symm
    · rw [if_neg h1] at h
      have hm : c ≠ '-' := fun hc => h1 (Or.inr hc)
      by_cases h2 : c = 'i' ∨ c = 'I'
      · rw [if_pos h2] at h
        cases hi : infinityLen (c :: cs) with
        | none => rw [hi] at h; simp at h
        | some k =>
          rw [hi] at h
          simp only [Option.map_some', Option.some.injEq, Prod.mk.injEq] at h
          left; rw [← h.1]; simp [hm]
      · rw [if_neg h2] at h
        by_cases h3 : c = 'n' ∨ c = 'N'
        · rw [if_pos h3] at h
          by_cases h4 : commonPrefixLenIgnoreCase (c :: cs) "nan".data = 3
          · rw [if_pos h4] at h
            simp only [Option.some.injEq, Prod.mk.injEq] at h
            exact Or.inr ⟨h.1.symm, h3⟩
          · rw [if_neg h4] at h; simp at h
        · rw [if_neg h3] at h; simp at h

theorem readFloat_sign (s : List Char) (l : Literal) (h : readFloat s = some l) :
    l.neg = decide (s.head? = some '-') := by
  cases s with
  | nil => simp [readFloat] at h
  | cons c cs =>
    unfold readFloat at h
    simp only at h
    generalize hexPrefixed (if c = '+' ∨ c = '-' then cs else c :: cs) = hex at h
    generalize scanMantissa hex
      (if hex = true then List.drop 2 (if c = '+' ∨ c = '-' then cs else c :: cs)
        else if c = '+' ∨ c = '-' then cs else c :: cs) ⟨0, false, false, 0⟩ = m at h
    by_cases h1 : (!m.1.sawdigits) = true
    · rw [if_pos h1] at h; simp at h
    · rw [if_neg h1] at h
      cases he : scanExponent hex m.2 with
      | none => rw [he] at h; simp at h
      | some er =>
        obtain ⟨e, rest⟩ := er
        rw [he] at h
        simp only at h
        by_cases h2 : rest ≠ []
        · rw [if_pos h2] at h; simp at h
        · rw [if_neg h2] at h
          by_cases h3 : (!underscoreOK (c :: cs)) = true
          · rw [if_pos h3] at h; simp at h
          · rw [if_neg h3] at h
            simp only [Option.some.injEq] at h
            rw [← h]
            simp

/-- The value `ParseFloat` returns for a string that starts with none of
`-`, `n`, `N` is `>= 0`. -/
theorem ParseFloat_nonneg (s : String) (h1 : s.data.head? ≠ some '-')
    (h2 : s.data.head? ≠ some 'n') (h3 : s.data.head? ≠ some 'N') :
    Float64.le Float64.zero (ParseFloat s).1 = true := by
  unfold ParseFloat
  cases hsp : special s.data with
  | some fn =>
    obtain ⟨f, n⟩ := fn
    simp only
    by_cases hn : n = s.data.length
    · rw [if_pos hn]
      rcases special_sign _ _ _ hsp with hf | ⟨-, hn | hn⟩
      · simp only [hf, h1, decide_False]; decide
      · exact absurd hn h2
      · exact absurd hn h3
    · rw [if_neg hn]; decide
  | none =>
    simp only
    cases hr : readFloat s.data with
    | none => decide
    | some l =>
      have hneg := readFloat_sign _ _ hr
      simp only [h1, decide_False] at hneg
      simp only [Literal.toFloat64, hneg]
      split_ifs <;> exact Float64.le_zero_round _ _

theorem Literal.toFloat64_shape (l : Literal) :
    (l.toFloat64.2 = false ∧ ∃ e f, l.toFloat64.1 = .finite l.neg e f) ∨
      (l.toFloat64.2 = true ∧ l.toFloat64.1 = .inf l.neg) := by
  unfold Literal.toFloat64
  simp only
  split_ifs <;> exact Float64.round_shape _ _ _

/-- The four forms of the result of `ParseFloat`. -/
theorem ParseFloat_cases (s : String) :
    ParseFloat s = (Float64.zero, some .invalid) ∨
      (∃ neg, ParseFloat s = (.inf neg, some .outOfRange)) ∨
      ∃ f, ParseFloat s = (f, none) := by
  unfold ParseFloat
  cases hsp : special s.data with
  | some fn =>
    obtain ⟨f, n⟩ := fn
    simp only
    by_cases hn : n = s.data.length
    · rw [if_pos hn]; exact Or.inr (Or.inr ⟨f, rfl⟩)
    · rw [if_neg hn]; exact Or.inl rfl
  | none =>
    simp only
    cases hr : readFloat s.data with
    | none => exact Or.inl rfl
    | some l =>
      simp only
      rcases Literal.toFloat64_shape l with ⟨hov, -⟩ | ⟨hov, hinf⟩
      · exact Or.inr (Or.inr ⟨l.toFloat64.1, by simp [hov]⟩)
      · exact Or.inr (Or.inl ⟨l.neg, by simp [hov, hinf]⟩)

theorem ParseFloat_invalid (s : String) (h : (ParseFloat s).2 = some .invalid) :
    (ParseFloat s).1 = Float64.zero := by
  rcases ParseFloat_cases s with h1 | ⟨neg, h1⟩ | ⟨f, h1⟩ <;> rw [h1] at h ⊢ <;> simp at h ⊢

theorem ParseFloat_outOfRange (s : String) (h : (ParseFloat s).2 = some .outOfRange) :
    (ParseFloat s).1 = .inf false ∨ (ParseFloat s).1 = .inf true := by
  rcases ParseFloat_cases s with h1 | ⟨neg, h1⟩ | ⟨f, h1⟩ <;> rw [h1] at h ⊢ <;> simp at h ⊢

theorem replaceAll_head (s : String) :
    (replaceAll s ',' '.').data.head? = s.data.head?.map (fun c => if c = ',' then '.' else c) := by
  unfold replaceAll
  cases s.data <;> simp

/-- On a range error `Atoi` returns the extreme int of the sign the string
starts with. -/
theorem Atoi_outOfRange_sign (s : String) (h : (Atoi s).2 = some .outOfRange) :
    (Atoi s).1 = if s.data.head? = some '-' then -9223372036854775808
      else 9223372036854775807 := by
  unfold Atoi at h ⊢
  by_cases h1 : s.data = []
  · simp [h1] at h
  · simp only [h1, if_false] at h ⊢
    generalize (if s.data.head? = some '+' ∨ s.data.head? = some '-' then s.data.tail
      else s.data) = body at h ⊢
    by_cases h2 : body = []
    · simp [h2] at h
    · simp only [h2, if_false] at h ⊢
      cases hp : parseUintLoop body 0 with
      | invalid => rw [hp] at h; simp at h
      | overflow =>
        by_cases hneg : s.data.head? = some '-' <;> simp [hneg]
      | value un =>
        rw [hp] at h
        by_cases hneg : s.data.head? = some '-'
        · simp only [hneg, decide_True, Bool.not_true, Bool.false_and, Bool.false_eq_true,
            if_false, Bool.true_and, decide_eq_true_eq, if_true] at h ⊢
          by_cases hbig : 9223372036854775808 < un
          · simp [hbig]
          · simp [hbig] at h
        · simp only [hneg, decide_False, Bool.not_false, Bool.true_and, decide_eq_true_eq,
            Bool.false_and, Bool.false_eq_true, if_false] at h ⊢
          by_cases hbig : 9223372036854775808 ≤ un
          · simp [hbig]
          · simp [hbig] at h

/-- On a range error `ParseFloat` returns the infinity of the sign the string
starts with. -/
theorem ParseFloat_outOfRange_sign (s : String) (h : (ParseFloat s).2 = some .outOfRange) :
    (ParseFloat s).1 = if s.data.head? = some '-' then .inf true else .inf false := by
  unfold ParseFloat at h ⊢
  cases hsp : special s.data with
  | some fn =>
    obtain ⟨f, n⟩ := fn
    rw [hsp] at h
    simp only at h
    by_cases hn : n = s.data.length
    · rw [if_pos hn] at h; simp at h
    · rw [if_neg hn] at h; simp at h
  | none =>
    rw [hsp] at h
    simp only at h ⊢
    cases hr : readFloat s.data with
    | none => rw [hr] at h; simp at h
    | some l =>
      rw [hr] at h
      simp only at h ⊢
      have hneg := readFloat_sign _ _ hr
      rcases Literal.toFloat64_shape l with ⟨hov, -⟩ | ⟨-, hinf⟩
      · rw [hov] at h; simp at h
      · rw [hinf, hneg]
        by_cases hm : s.data.head? = some '-' <;> simp [hm]

/-- Replacing commas by points keeps a leading minus sign, and adds none. -/
theorem replaceAll_head_minus (s : String) :
    (replaceAll s ',' '.').data.head? = some '-' ↔ s.data.head? = some '-' := by
  rw [replaceAll_head]
  cases hh : s.data.head? with
  | none => simp
  | some c =>
    simp only [Option.map_some', Option.some.injEq]
    by_cases hc : c = ','
    · subst hc; simp
    · simp [hc]

/-! ## Checks of the library models on known values -/

/-- The literal `0.1` is the float64 `0x3FB999999999999A`. -/
theorem ParseFloat_one_tenth :
    ParseFloat "0.1" = (.finite false 1019 2702159776422298, none) := by
  decide

/-- The sum `0.1 + 0.2` is `0.30000000000000004`, the float64 `0x3FD3333333333334`. -/
theorem add_one_tenth_two_tenths :
    Float64.add (ParseFloat "0.1").1 (ParseFloat "0.2").1
      = .finite false 1021 900719925474100 := by
  decide!

/-- The quotient `1.0 / 3.0` is the float64 `0x3FD5555555555555`. -/
theorem div_one_three :
    Float64.div (Float64.ofInt 1) (Float64.ofInt 3) = .finite false 1021 1501199875790165 := by
  decide!

/-- The largest finite float64 and the first literal beyond the range. -/
theorem ParseFloat_largest :
    ParseFloat "1.7976931348623157e308" = (.finite false 2046 4503599627370495, none) ∧
    ParseFloat "1.7976931348623159e308" = (.inf false, some .outOfRange) := by
  decide!

/-- Special values, a hexadecimal literal, underscores and malformed input. -/
theorem ParseFloat_forms :
    ParseFloat "NaN" = (.nan, none) ∧ ParseFloat "-Infinity" = (.inf true, none) ∧
    ParseFloat "0x1p-2" = (.finite false 1021 0, none) ∧
    ParseFloat "1_000" = ParseFloat "1000" ∧
    ParseFloat "93,4409" = (Float64.zero, some .invalid) ∧
    ParseFloat "" = (Float64.zero, some .invalid) ∧
    ParseFloat "-0" = (.finite true 0 0, none) := by
  decide!

/-- The ends of the int range and malformed input for `Atoi`. -/
theorem Atoi_forms :
    Atoi "-9223372036854775808" = (-9223372036854775808, none) ∧
    Atoi "9223372036854775807" = (9223372036854775807, none) ∧
    Atoi "+10" = (10, none) ∧ Atoi "1_0" = (0, some .invalid) ∧
    Atoi "" = (0, some .invalid) ∧
    Atoi "99999999999999999999abc" = (9223372036854775807, some .outOfRange) := by
  decide

/-- Day 719162 is 1 January 1970; 29 February exists in leap years only. -/
theorem timeParse_forms :
    timeParse '/' "01/01/1970" = some ⟨719162⟩ ∧ timeParse '/' "01/01/0001" = some Time.zero ∧
    timeParse '.' "29.02.2024" = some ⟨738944⟩ ∧ timeParse '.' "29.02.2023" = none ∧
    timeParse '/' "1/1/2024" = none ∧ timeParse '/' "15.03.2024" = none := by
  decide

/-! ## Claims on analyzeRates -/

/-- C1 (as amended): for every non-empty sequence whose first observation has
a non-NaN unit rate, `analyzeRates` returns, and its `minRate` and `maxRate`
satisfy `minRate.UnitRate <= r.UnitRate <= maxRate.UnitRate` for every
observation `r` of the sequence whose unit rate is not NaN. -/
theorem analyzeRates_bounds (rates : List CurrencyRate) (first : CurrencyRate)
    (hfirst : rates.head? = some first) (hnan : first.UnitRate.isNaN = false) :
    ∃ maxRate minRate avgRate, analyzeRates rates = some (maxRate, minRate, avgRate) ∧
      ∀ r ∈ rates, r.UnitRate.isNaN = false →
        Float64.le minRate.UnitRate r.UnitRate = true ∧
        Float64.le r.UnitRate maxRate.UnitRate = true := by
  cases rates with
  | nil => simp at hfirst
  | cons x rest =>
    simp only [List.head?_cons, Option.some.injEq] at hfirst
    subst hfirst
    refine ⟨_, _, _, analyzeRates_cons x rest, ?_⟩
    intro r hr hrn
    obtain ⟨hmx, -, hmxall, -⟩ :=
      foldl_selectStep_spec Float64.gt Float64.key gt_better (x :: rest) x hnan
    obtain ⟨hmn, -, hmnall, -⟩ :=
      foldl_selectStep_spec Float64.lt (fun v => -v.key) lt_better (x :: rest) x hnan
    have h1 := hmxall r hr hrn
    have h2 := hmnall r hr hrn
    simp only at h2
    exact ⟨(Float64.le_eq_true_iff _ _).2 ⟨hmn, hrn, by omega⟩,
      (Float64.le_eq_true_iff _ _).2 ⟨hrn, hmx, h1⟩⟩

/-- Witness for C1 as amended: two observations with unit rates 2 and 1. -/
theorem analyzeRates_bounds_witness :
    boundsSample.head? = some { CurrencyRate.zero with UnitRate := Float64.ofInt 2 } ∧
    (Float64.ofInt 2).isNaN = false ∧
    ∃ maxRate minRate avgRate,
      analyzeRates boundsSample = some (maxRate, minRate, avgRate) ∧
      ∀ r ∈ boundsSample, r.UnitRate.isNaN = false →
        Float64.le minRate.UnitRate r.UnitRate = true ∧
        Float64.le r.UnitRate maxRate.UnitRate = true :=
  ⟨rfl, by decide, analyzeRates_bounds boundsSample _ rfl (by decide)⟩

/-- Counterexample to C1 as stated: on the two observations with unit rates
NaN and 1, `analyzeRates` returns the NaN observation as both `maxRate` and
`minRate`, and neither `minRate.UnitRate <= 1` nor `1 <= maxRate.UnitRate`
holds. -/
theorem analyzeRates_nan_first_unbounded :
    analyzeRates [{ CurrencyRate.zero with UnitRate := Float64.nan },
        { CurrencyRate.zero with UnitRate := Float64.ofInt 1 }]
      = some ({ CurrencyRate.zero with UnitRate := Float64.nan },
          { CurrencyRate.zero with UnitRate := Float64.nan }, Float64.nan) ∧
    Float64.le Float64.nan (Float64.ofInt 1) = false ∧
    Float64.le (Float64.ofInt 1) Float64.nan = false := by
  decide

/-- C2 (as amended): for every non-empty sequence, `analyzeRates` returns,
and its `avgRate` is the float64 quotient of the float64 sum of all unit
rates, added to `0.0` one by one in sequence order, by
`float64(len(rates))`, so it depends on the observations through their unit
rates only.  When there are fewer than `2 ^ 53` observations and that
running sum is finite (no unit rate is NaN or an infinity and no partial sum
overflows), `avgRate` is finite and differs from the exact arithmetic mean
of the unit rates by at most `((1 + 2 ^ (-53)) ^ (n + 1) - 1)` times the
mean of their magnitudes, plus `2 ^ (-1075)`, with `n = len(rates)`. -/
theorem analyzeRates_avg (rates : List CurrencyRate) (hne : rates ≠ []) :
    ∃ maxRate minRate avgRate, analyzeRates rates = some (maxRate, minRate, avgRate) ∧
      avgRate = Float64.div ((rates.map CurrencyRate.UnitRate).foldl Float64.add Float64.zero)
        (Float64.ofInt (rates.length : Int)) ∧
      (rates.length < 9007199254740992 →
        ((rates.map CurrencyRate.UnitRate).foldl Float64.add Float64.zero).isFinite = true →
        avgRate.isFinite = true ∧
        |Float64.toRat avgRate - exactMean rates|
          ≤ ((1 + (2 : ℚ) ^ (-53 : Int)) ^ (rates.length + 1) - 1) * meanMagnitude rates
            + (2 : ℚ) ^ (-1075 : Int)) := by
  cases rates with
  | nil => exact absurd rfl hne
  | cons x rest =>
    refine ⟨_, _, _, analyzeRates_cons x rest, rfl, ?_⟩
    intro hlen hfin
    have h := avg_near ((x :: rest).map CurrencyRate.UnitRate) (by simp)
      (by rw [List.length_map]; exact hlen) hfin
    rw [List.length_map, List.map_map, List.map_map] at h
    exact h

/-- Witness for C2: the unit rates 1, 2 and 6 of three different currencies
have a finite running sum, and their average 3 is within the bound of the
exact mean. -/
theorem analyzeRates_avg_witness :
    avgSample ≠ [] ∧ avgSample.length < 9007199254740992 ∧
    ((avgSample.map CurrencyRate.UnitRate).foldl Float64.add Float64.zero).isFinite = true ∧
    (∃ maxRate minRate avgRate, analyzeRates avgSample = some (maxRate, minRate, avgRate) ∧
      avgRate = Float64.div ((avgSample.map CurrencyRate.UnitRate).foldl Float64.add Float64.zero)
        (Float64.ofInt (avgSample.length : Int)) ∧
      avgRate.isFinite = true ∧
      |Float64.toRat avgRate - exactMean avgSample|
        ≤ ((1 + (2 : ℚ) ^ (-53 : Int)) ^ (avgSample.length + 1) - 1) * meanMagnitude avgSample
          + (2 : ℚ) ^ (-1075 : Int)) ∧
    Float64.div ((avgSample.map CurrencyRate.UnitRate).foldl Float64.add Float64.zero)
      (Float64.ofInt (avgSample.length : Int)) = Float64.ofInt 3 :=
  ⟨by decide, by decide, by decide!,
    (analyzeRates_avg avgSample (by decide)).imp fun _ h1 => h1.imp fun _ h2 =>
      h2.imp fun _ h3 => ⟨h3.1, h3.2.1, h3.2.2 (by decide) (by decide!)⟩,
    by decide!⟩

/-- Counterexample to C2 as stated.  For the unit rates `0.1` and `0.2` the
`avgRate` returned is `0.15000000000000002`, which exceeds the exact
arithmetic mean of the two unit rates by `2 ^ (-56)`.  For two observations
whose unit rate is the largest finite float64, `1.7976931348623157e308`, the
exact arithmetic mean is that same finite number, yet the float64 sum
overflows and the `avgRate` returned is +Inf. -/
theorem analyzeRates_mean_rounding_and_overflow :
    analyzeRates roundingSample
      = some ({ CurrencyRate.zero with Code := "EUR", UnitRate := (ParseFloat "0.2").1 },
          { CurrencyRate.zero with Code := "USD", UnitRate := (ParseFloat "0.1").1 },
          (ParseFloat "0.15000000000000002").1) ∧
    Float64.toRat (ParseFloat "0.15000000000000002").1 - exactMean roundingSample
      = (2 : ℚ) ^ (-56 : Int) ∧
    (∀ r ∈ overflowSample, r.UnitRate = .finite false 2046 4503599627370495) ∧
    analyzeRates overflowSample
      = some ({ CurrencyRate.zero with
                  Code := "USD", UnitRate := .finite false 2046 4503599627370495 },
          { CurrencyRate.zero with
              Code := "USD", UnitRate := .finite false 2046 4503599627370495 },
          .inf false) ∧
    exactMean overflowSample = Float64.toRat (.finite false 2046 4503599627370495) := by
  have h1 : (ParseFloat "0.15000000000000002").1 = .finite false 1020 900719925474100 := by
    decide!
  have h2 : (ParseFloat "0.1").1 = .finite false 1019 2702159776422298 := by decide!
  have h3 : (ParseFloat "0.2").1 = .finite false 1020 2702159776422298 := by decide!
  have a1 : Float64.toRat (.finite false 1020 900719925474100)
      = 5404319552844596 * (2 : ℚ) ^ (-55 : Int) :=
    (Float64.toRat_of false 1020 900719925474100 (by decide) (by decide) 5404319552844596 (-55)
      (by decide) (by decide)).trans (by simp)
  have a2 : Float64.toRat (.finite false 1019 2702159776422298)
      = 7205759403792794 * (2 : ℚ) ^ (-56 : Int) :=
    (Float64.toRat_of false 1019 2702159776422298 (by decide) (by decide) 7205759403792794 (-56)
      (by decide) (by decide)).trans (by simp)
  have a3 : Float64.toRat (.finite false 1020 2702159776422298)
      = 7205759403792794 * (2 : ℚ) ^ (-55 : Int) :=
    (Float64.toRat_of false 1020 2702159776422298 (by decide) (by decide) 7205759403792794 (-55)
      (by decide) (by decide)).trans (by simp)
  have e55 : (2 : ℚ) ^ (-55 : Int) = 2 * (2 : ℚ) ^ (-56 : Int) := by
    rw [← zpow_one_add₀ (by norm_num : (2 : ℚ) ≠ 0)]; norm_num
  refine ⟨by decide!, ?_, by decide, by decide!, ?_⟩
  · simp only [exactMean, roundingSample, List.map_cons, List.map_nil, List.sum_cons,
      List.sum_nil, List.length_cons, List.length_nil, h1, h2, h3]
    rw [a1, a2, a3, e55]
    generalize (2 : ℚ) ^ (-56 : Int) = c
    norm_num
    ring
  · simp only [exactMean, overflowSample, List.map_cons, List.map_nil, List.sum_cons,
      List.sum_nil, List.length_cons, List.length_nil]
    generalize Float64.toRat (.finite false 2046 4503599627370495) = m
    norm_num

/-- C3 (as amended): for every non-empty sequence whose first observation has
a non-NaN unit rate, `maxRate` is a whole element of the input, at an index
`i` such that no non-NaN unit rate exceeds it and no element before `i` has
a unit rate equal to it; likewise `minRate` with no non-NaN unit rate below
it.  Ties therefore resolve to the first-encountered observation. -/
theorem analyzeRates_first_extremum (rates : List CurrencyRate) (first : CurrencyRate)
    (hfirst : rates.head? = some first) (hnan : first.UnitRate.isNaN = false) :
    ∃ maxRate minRate avgRate, analyzeRates rates = some (maxRate, minRate, avgRate) ∧
      (∃ i : Nat, rates[i]? = some maxRate ∧
        (∀ r ∈ rates, r.UnitRate.isNaN = false →
          Float64.le r.UnitRate maxRate.UnitRate = true) ∧
        ∀ (j : Nat) (r : CurrencyRate), j < i → rates[j]? = some r →
          Float64.eq r.UnitRate maxRate.UnitRate = false) ∧
      (∃ i : Nat, rates[i]? = some minRate ∧
        (∀ r ∈ rates, r.UnitRate.isNaN = false →
          Float64.le minRate.UnitRate r.UnitRate = true) ∧
        ∀ (j : Nat) (r : CurrencyRate), j < i → rates[j]? = some r →
          Float64.eq r.UnitRate minRate.UnitRate = false) := by
  cases rates with
  | nil => simp at hfirst
  | cons x rest =>
    simp only [List.head?_cons, Option.some.injEq] at hfirst
    subst hfirst
    refine ⟨_, _, _, analyzeRates_cons x rest, ?_, ?_⟩
    · obtain ⟨hmx, -, hall, hidx⟩ :=
        foldl_selectStep_spec Float64.gt Float64.key gt_better (x :: rest) x hnan
      have hle : ∀ r ∈ x :: rest, r.UnitRate.isNaN = false →
          Float64.le r.UnitRate
            ((x :: rest).foldl (selectStep Float64.gt) x).UnitRate = true :=
        fun r hr hrn => (Float64.le_eq_true_iff _ _).2 ⟨hrn, hmx, hall r hr hrn⟩
      rcases hidx with h0 | ⟨i, hi, -, hj⟩
      · exact ⟨0, by rw [h0]; simp, hle, fun j r hj _ => absurd hj (Nat.not_lt_zero j)⟩
      · refine ⟨i, hi, hle, ?_⟩
        intro j r hji hjr
        cases hb : Float64.eq r.UnitRate
            ((x :: rest).foldl (selectStep Float64.gt) x).UnitRate with
        | false => rfl
        | true =>
          obtain ⟨hrn, -, hk⟩ := (Float64.eq_eq_true_iff _ _).1 hb
          rcases hj j r hji hjr with h | h
          · rw [h] at hrn; exact absurd hrn (by decide)
          · omega
    · obtain ⟨hmn, -, hall, hidx⟩ :=
        foldl_selectStep_spec Float64.lt (fun v => -v.key) lt_better (x :: rest) x hnan
      have hle : ∀ r ∈ x :: rest, r.UnitRate.isNaN = false →
          Float64.le ((x :: rest).foldl (selectStep Float64.lt) x).UnitRate
            r.UnitRate = true := by
        intro r hr hrn
        have := hall r hr hrn
        simp only at this
        exact (Float64.le_eq_true_iff _ _).2 ⟨hmn, hrn, by omega⟩
      rcases hidx with h0 | ⟨i, hi, -, hj⟩
      · exact ⟨0, by rw [h0]; simp, hle, fun j r hj _ => absurd hj (Nat.not_lt_zero j)⟩
      · refine ⟨i, hi, hle, ?_⟩
        intro j r hji hjr
        cases hb : Float64.eq r.UnitRate
            ((x :: rest).foldl (selectStep Float64.lt) x).UnitRate with
        | false => rfl
        | true =>
          obtain ⟨hrn, -, hk⟩ := (Float64.eq_eq_true_iff _ _).1 hb
          rcases hj j r hji hjr with h | h
          · rw [h] at hrn; exact absurd hrn (by decide)
          · have h2 : -r.UnitRate.key <
                -((x :: rest).foldl (selectStep Float64.lt) x).UnitRate.key := h
            omega

/-- Witness for C3 as amended: the unit rates 1, 2, 2 and 1 of four
currencies; the first 2 and the first 1 are returned. -/
theorem analyzeRates_first_extremum_witness :
    tieSample.head? = some { CurrencyRate.zero with Code := "A", UnitRate := Float64.ofInt 1 } ∧
    (Float64.ofInt 1).isNaN = false ∧
    (∃ maxRate minRate avgRate, analyzeRates tieSample = some (maxRate, minRate, avgRate)) ∧
    (analyzeRates tieSample).map (fun res => (res.1, res.2.1))
      = some ({ CurrencyRate.zero with Code := "B", UnitRate := Float64.ofInt 2 },
          { CurrencyRate.zero with Code := "A", UnitRate := Float64.ofInt 1 }) :=
  ⟨rfl, by decide,
    (analyzeRates_first_extremum tieSample _ rfl (by decide)).imp
      (fun _ h => h.imp (fun _ h => h.imp (fun _ h => h.1))),
    by decide⟩

/-- Counterexample to C3 as stated: on the two observations with unit rates
NaN and 1, the returned `maxRate` and `minRate` are the NaN observation;
its unit rate equals no unit rate of the sequence, itself included, so it
is not the maximum or minimum unit rate, and 1 neither is below it nor
above it. -/
theorem analyzeRates_nan_not_extremum :
    (analyzeRates [{ CurrencyRate.zero with Code := "X", UnitRate := Float64.nan },
        { CurrencyRate.zero with Code := "Y", UnitRate := Float64.ofInt 1 }]).map
        (fun res => (res.1, res.2.1))
      = some ({ CurrencyRate.zero with Code := "X", UnitRate := Float64.nan },
          { CurrencyRate.zero with Code := "X", UnitRate := Float64.nan }) ∧
    (∀ r ∈ ([{ CurrencyRate.zero with Code := "X", UnitRate := Float64.nan },
        { CurrencyRate.zero with Code := "Y", UnitRate := Float64.ofInt 1 }]
          : List CurrencyRate),
      Float64.eq r.UnitRate Float64.nan = false ∧
      Float64.le r.UnitRate Float64.nan = false ∧
      Float64.le Float64.nan r.UnitRate = false) := by
  decide

/-- C4: on the empty sequence `analyzeRates` returns without a panic, and
returns the zero `CurrencyRate` (empty code and name, nominal 0, value 0,
unit rate 0, zero date) as `maxRate` and `minRate`, and 0 as `avgRate`. -/
theorem analyzeRates_nil :
    analyzeRates [] =
      some ({ Date := ⟨0⟩, Code := "", Name := "", Nominal := 0,
              Value := .finite false 0 0, UnitRate := .finite false 0 0 },
            { Date := ⟨0⟩, Code := "", Name := "", Nominal := 0,
              Value := .finite false 0 0, UnitRate := .finite false 0 0 },
            .finite false 0 0) := by
  rfl
/-! ## Claims on getCurrenciesForLastDays -/

/-- C5: when the anchor date parses and each of the `N` per-date steps
succeeds, `getCurrenciesForLastDays` requests exactly the dates anchor,
anchor - 1 day, ..., anchor - (N - 1) days in that order, returns no error,
and returns the concatenation, in that order, of the observations converted
from each day's entries in feed order; its length is the sum of the numbers
of entries of the days' feeds. -/
theorem getCurrenciesForLastDays_all_ok (fetch : Time → FetchOutcome) (startDate : String)
    (start : Time) (docs : Nat → ValCurs) (N : Nat)
    (hstart : timeParse '/' startDate = some start)
    (hok : ∀ k : Nat, k < N → fetch (start.addDays (-(k : Int))) = .document (docs k)) :
    (getCurrenciesForLastDays fetch startDate (N : Int)).requested =
        (List.range N).map (fun k : Nat => start.addDays (-(k : Int))) ∧
    (getCurrenciesForLastDays fetch startDate (N : Int)).err = none ∧
    (getCurrenciesForLastDays fetch startDate (N : Int)).rates =
        ((List.range N).map (fun k : Nat => (docs k).Rate.map (convert (docs k).Date))).flatten ∧
    (getCurrenciesForLastDays fetch startDate (N : Int)).rates.length =
        ((List.range N).map (fun k : Nat => (docs k).Rate.length)).sum := by
  have hloop := collectLoop_all_ok fetch start docs N 0 [] []
    (fun k _ hk => hok k (by omega))
  have hrun : getCurrenciesForLastDays fetch startDate (N : Int) =
      ⟨(List.range N).map (fun k : Nat => start.addDays (-(k : Int))),
        ((List.range N).map (fun k : Nat => (docs k).Rate.map (convert (docs k).Date))).flatten,
        none⟩ := by
    unfold getCurrenciesForLastDays
    simp only [hstart, Int.toNat_ofNat]
    have h0 : ((0 : Nat) : Int) = 0 := rfl
    rw [← h0, hloop]
    simp [List.range_eq_range']
  rw [hrun]
  refine ⟨rfl, rfl, rfl, ?_⟩
  simp [List.length_flatten, Function.comp_def]

/-- Witness for C5: two days from 15 March 2024, the same two-entry feed on
both days, give two requests and four observations; one day gives one
request and that day's two observations in feed order. -/
theorem getCurrenciesForLastDays_all_ok_witness :
    timeParse '/' "15/03/2024" = some ⟨738959⟩ ∧
    (∀ k : Nat, k < 2 →
      sampleFetch ((⟨738959⟩ : Time).addDays (-(k : Int))) = .document sampleDoc) ∧
    (getCurrenciesForLastDays sampleFetch "15/03/2024" 2).requested = [⟨738959⟩, ⟨738958⟩] ∧
    (getCurrenciesForLastDays sampleFetch "15/03/2024" 2).rates.length = 4 ∧
    (getCurrenciesForLastDays sampleFetch "15/03/2024" 1).requested = [⟨738959⟩] ∧
    (getCurrenciesForLastDays sampleFetch "15/03/2024" 1).rates
      = [convert "15.03.2024" (sampleEntry "1" "93,4409" "93,4409"),
         { Date := ⟨738959⟩, Code := "JPY", Name := "Japanese Yen", Nominal := 100,
           Value := .finite false 1028 4114390103323836,
           UnitRate := .finite false 1022 1011913800273877 }] :=
  ⟨by decide, fun _ _ => rfl,
    (getCurrenciesForLastDays_all_ok sampleFetch "15/03/2024" ⟨738959⟩ (fun _ => sampleDoc) 2
      (by decide) (fun _ _ => rfl)).1,
    (getCurrenciesForLastDays_all_ok sampleFetch "15/03/2024" ⟨738959⟩ (fun _ => sampleDoc) 2
      (by decide) (fun _ _ => rfl)).2.2.2,
    (getCurrenciesForLastDays_all_ok sampleFetch "15/03/2024" ⟨738959⟩ (fun _ => sampleDoc) 1
      (by decide) (fun _ _ => rfl)).1,
    (getCurrenciesForLastDays_all_ok sampleFetch "15/03/2024" ⟨738959⟩ (fun _ => sampleDoc) 1
      (by decide) (fun _ _ => rfl)).2.2.1.trans (by decide)⟩

/-- C6: when the anchor date parses, the per-date step succeeds for the days
before day `k` and fails for day `k < N`, `getCurrenciesForLastDays` returns
an error and no observations, having sent requests for the days up to `k`
only (not even for day `k` when the request could not be built). -/
theorem getCurrenciesForLastDays_fail_fast (fetch : Time → FetchOutcome) (startDate : String)
    (start : Time) (N k : Nat)
    (hstart : timeParse '/' startDate = some start) (hk : k < N)
    (hok : ∀ j : Nat, j < k → ∃ v, fetch (start.addDays (-(j : Int))) = .document v)
    (hfail : ∀ v, fetch (start.addDays (-(k : Int))) ≠ .document v) :
    (getCurrenciesForLastDays fetch startDate (N : Int)).rates = [] ∧
    (getCurrenciesForLastDays fetch startDate (N : Int)).err ≠ none ∧
    (getCurrenciesForLastDays fetch startDate (N : Int)).err =
      (match fetch (start.addDays (-(k : Int))) with
        | .requestError => some (.request (start.addDays (-(k : Int))))
        | .transportError => some (.transport (start.addDays (-(k : Int))))
        | .badStatus code => some (.status (start.addDays (-(k : Int))) code)
        | .decodeError => some (.decode (start.addDays (-(k : Int))))
        | .document _ => none) ∧
    (getCurrenciesForLastDays fetch startDate (N : Int)).requested =
      (List.range k).map (fun j : Nat => start.addDays (-(j : Int))) ++
        (if fetch (start.addDays (-(k : Int))) = .requestError then []
          else [start.addDays (-(k : Int))]) := by
  obtain ⟨m, rfl⟩ : ∃ m, N = k + 1 + m := ⟨N - (k + 1), by omega⟩
  have hloop := collectLoop_fail fetch start k 0 m [] []
    (fun j _ hj => hok j (by omega)) (by simpa using hfail)
  have hrun : getCurrenciesForLastDays fetch startDate ((k + 1 + m : Nat) : Int) =
      collectLoop fetch start (k + 1 + m) ((0 : Nat) : Int) [] [] := by
    unfold getCurrenciesForLastDays
    simp only [hstart, Int.toNat_ofNat]
    rfl
  rw [hrun]
  simp only [Nat.zero_add, List.nil_append] at hloop
  refine ⟨hloop.1, ?_, hloop.2.2, ?_⟩
  · rw [hloop.2.2]
    cases hf : fetch (start.addDays (-(k : Int))) with
    | document v => exact absurd hf (hfail v)
    | requestError => simp
    | transportError => simp
    | badStatus code => simp
    | decodeError => simp
  · rw [hloop.2.1]
    simp [List.range_eq_range']

/-- Witness for C6: of five days from 15 March 2024 the transport fails on
the third; a transport error and zero observations are returned after three
requests. -/
theorem getCurrenciesForLastDays_fail_fast_witness :
    timeParse '/' "15/03/2024" = some ⟨738959⟩ ∧ 2 < 5 ∧
    (∀ j : Nat, j < 2 → ∃ v, failingFetch ((⟨738959⟩ : Time).addDays (-(j : Int))) = .document v) ∧
    (∀ v, failingFetch ((⟨738959⟩ : Time).addDays (-((2 : Nat) : Int))) ≠ .document v) ∧
    (getCurrenciesForLastDays failingFetch "15/03/2024" 5).rates = [] ∧
    (getCurrenciesForLastDays failingFetch "15/03/2024" 5).err = some (.transport ⟨738957⟩) ∧
    (getCurrenciesForLastDays failingFetch "15/03/2024" 5).requested
      = [⟨738959⟩, ⟨738958⟩, ⟨738957⟩] :=
  have hok : ∀ j : Nat, j < 2 →
      ∃ v, failingFetch ((⟨738959⟩ : Time).addDays (-(j : Int))) = .document v := by
    intro j hj
    refine ⟨sampleDoc, ?_⟩
    interval_cases j <;> decide
  have hfail : ∀ v, failingFetch ((⟨738959⟩ : Time).addDays (-((2 : Nat) : Int)))
      ≠ .document v := by
    have hval : failingFetch ((⟨738959⟩ : Time).addDays (-((2 : Nat) : Int)))
        = .transportError := by decide
    intro v hv
    rw [hval] at hv
    cases hv
  ⟨by decide, by decide, hok, hfail,
    (getCurrenciesForLastDays_fail_fast failingFetch "15/03/2024" ⟨738959⟩ 5 2
      (by decide) (by decide) hok hfail).1,
    (getCurrenciesForLastDays_fail_fast failingFetch "15/03/2024" ⟨738959⟩ 5 2
      (by decide) (by decide) hok hfail).2.2.1,
    (getCurrenciesForLastDays_fail_fast failingFetch "15/03/2024" ⟨738959⟩ 5 2
      (by decide) (by decide) hok hfail).2.2.2⟩

/-! ## Claims on the conversion of feed entries -/

/-- C7: for every feed entry whose `Value` (resp. `VunitRate`) is a decimal
numeral written with a comma as decimal separator, digits `ip`, a comma,
digits `fp`, the converted `Value` (resp. `UnitRate`) is what `ParseFloat`
returns for the same numeral written with a period; it is the float64
nearest to the number `ip.fp` the numeral denotes, and when that number is
within the float64 range it differs from it by at most half a unit in the
last place. -/
theorem convert_comma_decimal (docDate : String) (valute : Rate) (ip fp : List Char)
    (hip : ∀ c ∈ ip, isDigit c = true) (hfp : ∀ c ∈ fp, isDigit c = true)
    (hne : ip ++ fp ≠ []) :
    (valute.Value = ⟨ip ++ ',' :: fp⟩ →
      (convert docDate valute).Value = (ParseFloat ⟨ip ++ '.' :: fp⟩).1 ∧
      (convert docDate valute).Value =
        (Float64.round false (decimalValue (ip ++ fp)) (10 ^ fp.length)).1 ∧
      ((ParseFloat ⟨ip ++ '.' :: fp⟩).2 = none →
        |Float64.toRat (convert docDate valute).Value
            - (decimalValue (ip ++ fp) : ℚ) / ((10 ^ fp.length : Nat) : ℚ)|
          ≤ Float64.halfUlp (decimalValue (ip ++ fp)) (10 ^ fp.length))) ∧
    (valute.VunitRate = ⟨ip ++ ',' :: fp⟩ →
      (convert docDate valute).UnitRate = (ParseFloat ⟨ip ++ '.' :: fp⟩).1 ∧
      (convert docDate valute).UnitRate =
        (Float64.round false (decimalValue (ip ++ fp)) (10 ^ fp.length)).1 ∧
      ((ParseFloat ⟨ip ++ '.' :: fp⟩).2 = none →
        |Float64.toRat (convert docDate valute).UnitRate
            - (decimalValue (ip ++ fp) : ℚ) / ((10 ^ fp.length : Nat) : ℚ)|
          ≤ Float64.halfUlp (decimalValue (ip ++ fp)) (10 ^ fp.length))) := by
  have hparse := ParseFloat_decimal ip fp hip hfp hne
  have hrepl := replaceAll_comma ip fp hip hfp
  have hnear : (ParseFloat ⟨ip ++ '.' :: fp⟩).2 = none →
      |Float64.toRat (Float64.round false (decimalValue (ip ++ fp)) (10 ^ fp.length)).1
          - (decimalValue (ip ++ fp) : ℚ) / ((10 ^ fp.length : Nat) : ℚ)|
        ≤ Float64.halfUlp (decimalValue (ip ++ fp)) (10 ^ fp.length) := by
    intro hnone
    rw [hparse] at hnone
    have hfin : (Float64.round false (decimalValue (ip ++ fp)) (10 ^ fp.length)).2 = false := by
      cases hb : (Float64.round false (decimalValue (ip ++ fp)) (10 ^ fp.length)).2 with
      | false => rfl
      | true => rw [hb] at hnone; simp at hnone
    have h := Float64.round_near false (decimalValue (ip ++ fp)) (10 ^ fp.length)
      (by positivity) hfin
    simpa using h
  constructor
  · intro hv
    have hval : (convert docDate valute).Value = (ParseFloat ⟨ip ++ '.' :: fp⟩).1 := by
      simp only [convert, hv, hrepl]
    have hround : (convert docDate valute).Value =
        (Float64.round false (decimalValue (ip ++ fp)) (10 ^ fp.length)).1 := by
      rw [hval, hparse]
    exact ⟨hval, hround, fun hnone => by rw [hround]; exact hnear hnone⟩
  · intro hv
    have hval : (convert docDate valute).UnitRate = (ParseFloat ⟨ip ++ '.' :: fp⟩).1 := by
      simp only [convert, hv, hrepl]
    have hround : (convert docDate valute).UnitRate =
        (Float64.round false (decimalValue (ip ++ fp)) (10 ^ fp.length)).1 := by
      rw [hval, hparse]
    exact ⟨hval, hround, fun hnone => by rw [hround]; exact hnear hnone⟩

/-- Witness for C7: `Value` and `VunitRate` both `93,4409` give the float64
93.4409 (exponent field 1029, fraction field 2071719160460188), within half
a unit in the last place of 934409 / 10000. -/
theorem convert_comma_decimal_witness :
    (∀ c ∈ "93".data, isDigit c = true) ∧ (∀ c ∈ "4409".data, isDigit c = true) ∧
    "93".data ++ "4409".data ≠ [] ∧
    (sampleEntry "1" "93,4409" "93,4409").Value = ⟨"93".data ++ ',' :: "4409".data⟩ ∧
    (sampleEntry "1" "93,4409" "93,4409").VunitRate = ⟨"93".data ++ ',' :: "4409".data⟩ ∧
    (ParseFloat ⟨"93".data ++ '.' :: "4409".data⟩).2 = none ∧
    (convert "15.03.2024" (sampleEntry "1" "93,4409" "93,4409")).Value
      = .finite false 1029 2071719160460188 ∧
    (convert "15.03.2024" (sampleEntry "1" "93,4409" "93,4409")).UnitRate
      = .finite false 1029 2071719160460188 ∧
    |Float64.toRat (convert "15.03.2024" (sampleEntry "1" "93,4409" "93,4409")).Value
        - (decimalValue ("93".data ++ "4409".data) : ℚ)
          / ((10 ^ "4409".data.length : Nat) : ℚ)|
      ≤ Float64.halfUlp (decimalValue ("93".data ++ "4409".data)) (10 ^ "4409".data.length) ∧
    |Float64.toRat (convert "15.03.2024" (sampleEntry "1" "93,4409" "93,4409")).UnitRate
        - (decimalValue ("93".data ++ "4409".data) : ℚ)
          / ((10 ^ "4409".data.length : Nat) : ℚ)|
      ≤ Float64.halfUlp (decimalValue ("93".data ++ "4409".data)) (10 ^ "4409".data.length) ∧
    decimalValue ("93".data ++ "4409".data) = 934409 ∧ 10 ^ "4409".data.length = 10000 :=
  ⟨by decide, by decide, by decide, rfl, rfl, by decide,
    ((convert_comma_decimal "15.03.2024" (sampleEntry "1" "93,4409" "93,4409")
      "93".data "4409".data (by decide) (by decide) (by decide)).1 rfl).2.1.trans (by decide),
    ((convert_comma_decimal "15.03.2024" (sampleEntry "1" "93,4409" "93,4409")
      "93".data "4409".data (by decide) (by decide) (by decide)).2 rfl).2.1.trans (by decide),
    ((convert_comma_decimal "15.03.2024" (sampleEntry "1" "93,4409" "93,4409")
      "93".data "4409".data (by decide) (by decide) (by decide)).1 rfl).2.2 (by decide),
    ((convert_comma_decimal "15.03.2024" (sampleEntry "1" "93,4409" "93,4409")
      "93".data "4409".data (by decide) (by decide) (by decide)).2 rfl).2.2 (by decide),
    by decide, by decide⟩

/-- C8 (as amended): a converted observation has `Nominal >= 1` when the
entry's `Nominal` is a string of decimal digits with a non-zero digit, and
`UnitRate >= 0` when the entry's `VunitRate` does not start with `-`, `n`
or `N`. -/
theorem convert_nominal_unitRate_bounds (docDate : String) (valute : Rate) :
    ((∀ c ∈ valute.Nominal.data, isDigit c = true) →
      (∃ c ∈ valute.Nominal.data, c ≠ '0') → 1 ≤ (convert docDate valute).Nominal) ∧
    (valute.VunitRate.data.head? ≠ some '-' → valute.VunitRate.data.head? ≠ some 'n' →
      valute.VunitRate.data.head? ≠ some 'N' →
      Float64.le Float64.zero (convert docDate valute).UnitRate = true) := by
  constructor
  · intro hd hnz
    exact Atoi_pos _ hd hnz
  · intro h1 h2 h3
    have hhead := replaceAll_head valute.VunitRate
    have key : ∀ d : Char, d ≠ '.' → valute.VunitRate.data.head? ≠ some d →
        (replaceAll valute.VunitRate ',' '.').data.head? ≠ some d := by
      intro d hd hne
      rw [hhead]
      cases hh : valute.VunitRate.data.head? with
      | none => simp
      | some c =>
        rw [hh] at hne
        simp only [Option.map_some', ne_eq, Option.some.injEq]
        by_cases hc : c = ','
        · simp only [hc, if_true]
          exact fun h => hd h.symm
        · simp only [hc, if_false]
          exact fun h => hne (by rw [h])
    exact ParseFloat_nonneg _ (key '-' (by decide) h1) (key 'n' (by decide) h2)
      (key 'N' (by decide) h3)

/-- Witness for C8 as amended: `Nominal` "100" and `VunitRate` "0,612345". -/
theorem convert_nominal_unitRate_bounds_witness :
    (∀ c ∈ (sampleEntry "100" "61,2345" "0,612345").Nominal.data, isDigit c = true) ∧
    (∃ c ∈ (sampleEntry "100" "61,2345" "0,612345").Nominal.data, c ≠ '0') ∧
    (sampleEntry "100" "61,2345" "0,612345").VunitRate.data.head? ≠ some '-' ∧
    (sampleEntry "100" "61,2345" "0,612345").VunitRate.data.head? ≠ some 'n' ∧
    (sampleEntry "100" "61,2345" "0,612345").VunitRate.data.head? ≠ some 'N' ∧
    1 ≤ (convert "15.03.2024" (sampleEntry "100" "61,2345" "0,612345")).Nominal ∧
    Float64.le Float64.zero
      (convert "15.03.2024" (sampleEntry "100" "61,2345" "0,612345")).UnitRate = true :=
  ⟨by decide, by decide, by decide, by decide, by decide,
    (convert_nominal_unitRate_bounds "15.03.2024" (sampleEntry "100" "61,2345" "0,612345")).1
      (by decide) (by decide),
    (convert_nominal_unitRate_bounds "15.03.2024" (sampleEntry "100" "61,2345" "0,612345")).2
      (by decide) (by decide) (by decide)⟩

/-- Counterexample to C8 as stated: the entry with `Nominal` "0" and
`VunitRate` "-1" converts to `Nominal` 0 and `UnitRate` -1, and an entry with
both fields empty converts to `Nominal` 0. -/
theorem convert_zero_nominal_negative_unitRate :
    (convert "15.03.2024" (sampleEntry "0" "0" "-1")).Nominal = 0 ∧
    (convert "15.03.2024" (sampleEntry "0" "0" "-1")).UnitRate = .finite true 1023 0 ∧
    Float64.le Float64.zero (convert "15.03.2024" (sampleEntry "0" "0" "-1")).UnitRate = false ∧
    (convert "15.03.2024" (sampleEntry "" "" "")).Nominal = 0 := by
  decide

/-- C9: for any two feed entries that agree on `Nominal` and `VunitRate`,
whatever their other fields and their documents' dates, the converted
observations have the same `Nominal` and the same `UnitRate`; with
`Nominal` "10" and `VunitRate` "93.12" these are 10 and the float64 93.12
(exponent field 1029, fraction field 2049137830453576). -/
theorem convert_nominal_unitRate_determined (docDate1 docDate2 : String)
    (valute1 valute2 : Rate) (hN : valute1.Nominal = valute2.Nominal)
    (hU : valute1.VunitRate = valute2.VunitRate) :
    (convert docDate1 valute1).Nominal = (convert docDate2 valute2).Nominal ∧
    (convert docDate1 valute1).UnitRate = (convert docDate2 valute2).UnitRate ∧
    (valute1.Nominal = "10" → valute1.VunitRate = "93.12" →
      (convert docDate1 valute1).Nominal = 10 ∧
      (convert docDate1 valute1).UnitRate = .finite false 1029 2049137830453576) := by
  refine ⟨by simp only [convert, hN], by simp only [convert, hU], ?_⟩
  intro h1 h2
  simp only [convert, h1, h2]
  decide

/-- Witness for C9: two entries with `Nominal` "10" and `VunitRate` "93.12"
whose `Value` fields are "931,2" and "not a number". -/
theorem convert_nominal_unitRate_determined_witness :
    (sampleEntry "10" "931,2" "93.12").Nominal
      = (sampleEntry "10" "not a number" "93.12").Nominal ∧
    (sampleEntry "10" "931,2" "93.12").VunitRate
      = (sampleEntry "10" "not a number" "93.12").VunitRate ∧
    (convert "15.03.2024" (sampleEntry "10" "931,2" "93.12")).Nominal
      = (convert "" (sampleEntry "10" "not a number" "93.12")).Nominal ∧
    (convert "15.03.2024" (sampleEntry "10" "931,2" "93.12")).UnitRate
      = (convert "" (sampleEntry "10" "not a number" "93.12")).UnitRate ∧
    (convert "15.03.2024" (sampleEntry "10" "931,2" "93.12")).Nominal = 10 ∧
    (convert "15.03.2024" (sampleEntry "10" "931,2" "93.12")).UnitRate
      = .finite false 1029 2049137830453576 :=
  ⟨rfl, rfl,
    (convert_nominal_unitRate_determined "15.03.2024" "" (sampleEntry "10" "931,2" "93.12")
      (sampleEntry "10" "not a number" "93.12") rfl rfl).1,
    (convert_nominal_unitRate_determined "15.03.2024" "" (sampleEntry "10" "931,2" "93.12")
      (sampleEntry "10" "not a number" "93.12") rfl rfl).2.1,
    ((convert_nominal_unitRate_determined "15.03.2024" "" (sampleEntry "10" "931,2" "93.12")
      (sampleEntry "10" "not a number" "93.12") rfl rfl).2.2 rfl rfl).1,
    ((convert_nominal_unitRate_determined "15.03.2024" "" (sampleEntry "10" "931,2" "93.12")
      (sampleEntry "10" "not a number" "93.12") rfl rfl).2.2 rfl rfl).2⟩

/-- C10 (as amended): the inner loop appends exactly one observation per feed
entry, in feed order, whatever the fields contain; `Code` and `Name` are
copied, and each numeric field is the value its own parser returns: for
each of `Nominal`, `Value`, `VunitRate` either the parser reports no error,
or it reports a syntax error and the field is 0, or it reports a range
error and the field is the extreme value of the sign of the numeral: the
smallest int, respectively -Inf, when the text of the field starts with
`-`, and the largest int, respectively +Inf, otherwise. -/
theorem convert_parse_failures (allRates : List CurrencyRate) (valCurs : ValCurs)
    (docDate : String) (valute : Rate) :
    appendRates allRates valCurs = allRates ++ valCurs.Rate.map (convert valCurs.Date) ∧
    (appendRates allRates valCurs).length = allRates.length + valCurs.Rate.length ∧
    (convert docDate valute).Code = valute.CharCode ∧
    (convert docDate valute).Name = valute.Name ∧
    (convert docDate valute).Nominal = (Atoi valute.Nominal).1 ∧
    (convert docDate valute).Value = (ParseFloat (replaceAll valute.Value ',' '.')).1 ∧
    (convert docDate valute).UnitRate = (ParseFloat (replaceAll valute.VunitRate ',' '.')).1 ∧
    ((Atoi valute.Nominal).2 = none ∨
      ((Atoi valute.Nominal).2 = some .invalid ∧ (convert docDate valute).Nominal = 0) ∨
      ((Atoi valute.Nominal).2 = some .outOfRange ∧
        (convert docDate valute).Nominal =
          if valute.Nominal.data.head? = some '-' then -9223372036854775808
          else 9223372036854775807)) ∧
    ((ParseFloat (replaceAll valute.Value ',' '.')).2 = none ∨
      ((ParseFloat (replaceAll valute.Value ',' '.')).2 = some .invalid ∧
        (convert docDate valute).Value = Float64.zero) ∨
      ((ParseFloat (replaceAll valute.Value ',' '.')).2 = some .outOfRange ∧
        (convert docDate valute).Value =
          if valute.Value.data.head? = some '-' then .inf true else .inf false)) ∧
    ((ParseFloat (replaceAll valute.VunitRate ',' '.')).2 = none ∨
      ((ParseFloat (replaceAll valute.VunitRate ',' '.')).2 = some .invalid ∧
        (convert docDate valute).UnitRate = Float64.zero) ∨
      ((ParseFloat (replaceAll valute.VunitRate ',' '.')).2 = some .outOfRange ∧
        (convert docDate valute).UnitRate =
          if valute.VunitRate.data.head? = some '-' then .inf true else .inf false)) := by
  have hfloat : ∀ s : String, (ParseFloat (replaceAll s ',' '.')).2 = none ∨
      ((ParseFloat (replaceAll s ',' '.')).2 = some .invalid ∧
        (ParseFloat (replaceAll s ',' '.')).1 = Float64.zero) ∨
      ((ParseFloat (replaceAll s ',' '.')).2 = some .outOfRange ∧
        (ParseFloat (replaceAll s ',' '.')).1 =
          if s.data.head? = some '-' then .inf true else .inf false) := by
    intro s
    cases h : (ParseFloat (replaceAll s ',' '.')).2 with
    | none => exact Or.inl rfl
    | some e =>
      cases e with
      | invalid => exact Or.inr (Or.inl ⟨rfl, ParseFloat_invalid _ h⟩)
      | outOfRange =>
        refine Or.inr (Or.inr ⟨rfl, ?_⟩)
        rw [ParseFloat_outOfRange_sign _ h]
        by_cases hm : s.data.head? = some '-'
        · rw [if_pos hm, if_pos ((replaceAll_head_minus s).2 hm)]
        · rw [if_neg hm, if_neg (fun hr => hm ((replaceAll_head_minus s).1 hr))]
  have hint : ∀ s : String, (Atoi s).2 = none ∨
      ((Atoi s).2 = some .invalid ∧ (Atoi s).1 = 0) ∨
      ((Atoi s).2 = some .outOfRange ∧
        (Atoi s).1 = if s.data.head? = some '-' then -9223372036854775808
          else 9223372036854775807) := by
    intro s
    cases h : (Atoi s).2 with
    | none => exact Or.inl rfl
    | some e =>
      cases e with
      | invalid => exact Or.inr (Or.inl ⟨rfl, Atoi_invalid s h⟩)
      | outOfRange => exact Or.inr (Or.inr ⟨rfl, Atoi_outOfRange_sign s h⟩)
  refine ⟨appendRates_eq _ _, by simp [appendRates_eq], rfl, rfl, rfl, rfl, rfl,
    hint _, hfloat _, hfloat _⟩

/-- Counterexample to C10 as stated: `Atoi` rejects the `Nominal`
"9223372036854775808" and `ParseFloat` rejects the `Value` "1e309", both
with a range error, yet the converted `Nominal` is 9223372036854775807 and
the converted `Value` is +Inf, not 0. -/
theorem convert_range_error_not_zero :
    (Atoi (sampleEntry "9223372036854775808" "1e309" "1").Nominal).2 = some .outOfRange ∧
    (convert "15.03.2024" (sampleEntry "9223372036854775808" "1e309" "1")).Nominal
      = 9223372036854775807 ∧
    (ParseFloat (replaceAll (sampleEntry "9223372036854775808" "1e309" "1").Value ',' '.')).2
      = some .outOfRange ∧
    (convert "15.03.2024" (sampleEntry "9223372036854775808" "1e309" "1")).Value
      = .inf false := by
  decide!

end CentroBank
